import Mathlib

/-!
Verification development for the eray shader-graph subsystem
(src/lib/shader/graph.rs and its supporting value types).

The Rust source is shallowly embedded: Rust HashMaps become association
lists whose list order stands for the (arbitrary but fixed) iteration
order of the map, f32 payloads become rationals, and the stateful
methods on Graph become state-passing functions.  Recursion through the
node graph is modelled with an explicit fuel parameter; running out of
fuel is a distinguished outcome, separate from the errors and panics of
the source.
-/

namespace Eray

/-- Socket names.  The source wraps a String in a Name struct; two names
are equal iff their text is equal, so a plain String is used here. -/
abbrev Name := String

/-- Node identifiers, likewise a String wrapper in the source. -/
abbrev NodeId := String

/-- RGB color struct from color.rs (f32 fields modelled as rationals). -/
structure Color where
  r : Rat
  g : Rat
  b : Rat
deriving DecidableEq, Repr

/-- Default color: all fields f32 default, i.e. zero (derived Default). -/
def Color.default : Color := ⟨0, 0, 0⟩

/-- Two-dimensional f32 vector, Vector 2 f32 in vector.rs. -/
structure Vec2 where
  x : Rat
  y : Rat
deriving DecidableEq, Repr

/-- Default 2-vector: all components zero. -/
def Vec2.default : Vec2 := ⟨0, 0⟩

/-- Three-dimensional f32 vector, Vector 3 f32 in vector.rs. -/
structure Vec3 where
  x : Rat
  y : Rat
  z : Rat
deriving DecidableEq, Repr

/-- Default 3-vector: all components zero. -/
def Vec3.default : Vec3 := ⟨0, 0, 0⟩

/-- Generic image from image.rs: a width, a height and a flat pixel list. -/
structure Image (T : Type) where
  width : Nat
  height : Nat
  pixels : List T
deriving DecidableEq, Repr

/-- Image Default impl: a 1 by 1 image holding the element default. -/
def Image.mkDefault (d : T) : Image T := ⟨1, 1, [d]⟩

/-- Image conversion from image.rs (trait Convertible): keep the
dimensions and map the conversion method over the pixels. -/
def Image.convertImage (img : Image α) (method : α → β) : Image β :=
  ⟨img.width, img.height, img.pixels.map method⟩

/-- From f32 for Vector DIM (vector.rs): broadcast the scalar. -/
def ratToVec2 (v : Rat) : Vec2 := ⟨v, v⟩

/-- From f32 for Vector 3 (vector.rs): broadcast the scalar. -/
def ratToVec3 (v : Rat) : Vec3 := ⟨v, v, v⟩

/-- From f32 for Color (color.rs): broadcast to (v, v, v). -/
def ratToColor (v : Rat) : Color := ⟨v, v, v⟩

/-- From Vector DIM for f32 (vector.rs): sum of components over length. -/
def vec2ToRat (v : Vec2) : Rat := (v.x + v.y) / 2

/-- From Vector 3 for f32 (vector.rs): sum of components over length. -/
def vec3ToRat (v : Vec3) : Rat := (v.x + v.y + v.z) / 3

/-- From Vector 3 for Color (color.rs): component reinterpretation. -/
def vec3ToColor (v : Vec3) : Color := ⟨v.x, v.y, v.z⟩

/-- From Color for Vector 3 (vector.rs): component reinterpretation. -/
def colorToVec3 (c : Color) : Vec3 := ⟨c.r, c.g, c.b⟩

/-- Modelled from the spec: the Color-to-scalar conversion used by the
Color-to-Value entry of the conversion table.  The impl From Color for
f32 is absent from the source snapshot; the spec and the older socket
code average the three channels, consistent with the vector-to-scalar
conversion. -/
def colorToRat (c : Color) : Rat := (c.r + c.g + c.b) / 3

/-- Possible socket types (socket_value macro in graph.rs): each scalar
kind is followed by its image variant, in declaration order. -/
inductive SocketType where
  | Value
  | IValue
  | Vec2
  | IVec2
  | Vec3
  | IVec3
  | Color
  | IColor
deriving DecidableEq, Repr

/-- Possible socket values (socket_value macro in graph.rs): every kind
carries an Option of its payload; None is an unset socket. -/
inductive SocketValue where
  | Value (opt : Option Rat)
  | IValue (opt : Option (Image Rat))
  | Vec2 (opt : Option Vec2)
  | IVec2 (opt : Option (Image Vec2))
  | Vec3 (opt : Option Vec3)
  | IVec3 (opt : Option (Image Vec3))
  | Color (opt : Option Color)
  | IColor (opt : Option (Image Color))
deriving DecidableEq, Repr

namespace SocketValue

/-- SocketValue is_none: check whether the socket has no value. -/
def isNoneV : SocketValue → Bool
  | .Value opt => opt.isNone
  | .IValue opt => opt.isNone
  | .Vec2 opt => opt.isNone
  | .IVec2 opt => opt.isNone
  | .Vec3 opt => opt.isNone
  | .IVec3 opt => opt.isNone
  | .Color opt => opt.isNone
  | .IColor opt => opt.isNone

/-- SocketValue set_default: set the contained value to its type's
default (scalar defaults for scalar kinds, Image default for images). -/
def setDefault : SocketValue → SocketValue
  | .Value _ => .Value (some 0)
  | .IValue _ => .IValue (some (Image.mkDefault 0))
  | .Vec2 _ => .Vec2 (some Vec2.default)
  | .IVec2 _ => .IVec2 (some (Image.mkDefault Vec2.default))
  | .Vec3 _ => .Vec3 (some Vec3.default)
  | .IVec3 _ => .IVec3 (some (Image.mkDefault Vec3.default))
  | .Color _ => .Color (some Color.default)
  | .IColor _ => .IColor (some (Image.mkDefault Color.default))

end SocketValue

/-- From SocketValue for SocketType: the kind-only projection. -/
def kindOf : SocketValue → SocketType
  | .Value _ => .Value
  | .IValue _ => .IValue
  | .Vec2 _ => .Vec2
  | .IVec2 _ => .IVec2
  | .Vec3 _ => .Vec3
  | .IVec3 _ => .IVec3
  | .Color _ => .Color
  | .IColor _ => .IColor

/-- From SocketType for SocketValue: an unset value of the given kind. -/
def SocketType.toValue : SocketType → SocketValue
  | .Value => .Value none
  | .IValue => .IValue none
  | .Vec2 => .Vec2 none
  | .IVec2 => .IVec2 none
  | .Vec3 => .Vec3 none
  | .IVec3 => .IVec3 none
  | .Color => .Color none
  | .IColor => .IColor none

/-- SocketValue try_convert (socket_conversions macro expansion in
graph.rs).  The scalar conversion entries are Value to Vec2, Vec3 and
Color; Vec2 to Value; Vec3 to Value and Color; Color to Value and Vec3;
each image kind converts to exactly the image counterparts of its
scalar row, element-wise.  Every other pair returns the unit error of
the source (Result of Self over unit). -/
def tryConvert : SocketValue → SocketType → Except Unit SocketValue
  | .Value opt, target =>
    match target with
    | .Vec2 => .ok (.Vec2 (opt.map ratToVec2))
    | .Vec3 => .ok (.Vec3 (opt.map ratToVec3))
    | .Color => .ok (.Color (opt.map ratToColor))
    | _ => .error ()
  | .IValue opt, target =>
    match target with
    | .IVec2 => .ok (.IVec2 (opt.map (fun img => img.convertImage ratToVec2)))
    | .IVec3 => .ok (.IVec3 (opt.map (fun img => img.convertImage ratToVec3)))
    | .IColor => .ok (.IColor (opt.map (fun img => img.convertImage ratToColor)))
    | _ => .error ()
  | .Vec2 opt, target =>
    match target with
    | .Value => .ok (.Value (opt.map vec2ToRat))
    | _ => .error ()
  | .IVec2 opt, target =>
    match target with
    | .IValue => .ok (.IValue (opt.map (fun img => img.convertImage vec2ToRat)))
    | _ => .error ()
  | .Vec3 opt, target =>
    match target with
    | .Value => .ok (.Value (opt.map vec3ToRat))
    | .Color => .ok (.Color (opt.map vec3ToColor))
    | _ => .error ()
  | .IVec3 opt, target =>
    match target with
    | .IValue => .ok (.IValue (opt.map (fun img => img.convertImage vec3ToRat)))
    | .IColor => .ok (.IColor (opt.map (fun img => img.convertImage vec3ToColor)))
    | _ => .error ()
  | .Color opt, target =>
    match target with
    | .Value => .ok (.Value (opt.map colorToRat))
    | .Vec3 => .ok (.Vec3 (opt.map colorToVec3))
    | _ => .error ()
  | .IColor opt, target =>
    match target with
    | .IValue => .ok (.IValue (opt.map (fun img => img.convertImage colorToRat)))
    | .IVec3 => .ok (.IVec3 (opt.map (fun img => img.convertImage colorToVec3)))
    | _ => .error ()

/-- Reference to a Graph or Node socket (enum SocketRef in graph.rs). -/
inductive SocketRef where
  | node (id : NodeId) (socket : Name)
  | graph (input : Name)
deriving DecidableEq, Repr

/-- Modelled from the spec: the Side enum of shader/shader.rs is absent
from the source snapshot; the Missing error distinguishes the input and
output side of a socket lookup. -/
inductive Side where
  | input
  | output
deriving DecidableEq, Repr

/-- Graph error enum from graph.rs, field order as in the source; the
variant name UnlinkeUnsetdGraphOutput keeps the source spelling.  The
Shader payload is the implementation-defined shader failure, modelled
as a string. -/
inductive GError where
  | UnlinkeUnsetdGraphOutput (name : Name)
  | Cycle (during : List NodeId) (sourceSocket : Name) (targetSocket : Name)
      (detected : NodeId)
  | Shader (msg : String)
  | Missing (side : Side) (name : Name)
deriving DecidableEq, Repr

/-- Modelled from the spec: the Shader struct of shader/shader.rs is
absent from the source snapshot.  Per the spec it wraps one shading
function taking a snapshot of resolved inputs and a mutable view of the
node's outputs, producing the outputs or an implementation-defined
error; the call method invokes that function. -/
structure Shader where
  call : List (Name × SocketValue) → List (Name × SocketValue) →
    Except String (List (Name × SocketValue))

mutual

/-- Flat graph and its nodes (Graph, GraphNode, ImportedNode, Node in
graph.rs).  The phase tag is a phantom type in the source and carries
no data, so it is omitted here; validate and run are separate functions
below.  HashMaps become association lists (list order = iteration
order). -/
inductive Graph where
  | mk (inputs : List (Name × SocketValue))
      (outputs : List (Name × Option SocketRef × SocketValue))
      (nodes : List (NodeId × Node)) : Graph

/-- A node is either a raw GraphNode with its own Shader, or an
ImportedNode wrapping an inner sub-graph (enum Node in graph.rs). -/
inductive Node where
  | graph (inputs : List (Name × Option SocketRef × SocketType))
      (outputs : List (Name × SocketValue))
      (shader : Shader) : Node
  | imported (name : Name)
      (inputs : List (Name × Option SocketRef × SocketType))
      (inner : Graph) : Node

end

/-- Graph inputs field accessor. -/
def Graph.inputs : Graph → List (Name × SocketValue)
  | .mk i _ _ => i

/-- Graph outputs field accessor. -/
def Graph.outputs : Graph → List (Name × Option SocketRef × SocketValue)
  | .mk _ o _ => o

/-- Graph nodes field accessor. -/
def Graph.nodes : Graph → List (NodeId × Node)
  | .mk _ _ n => n

/-- Node inputs method from graph.rs: both variants expose their input
map. -/
def Node.inputsOf : Node → List (Name × Option SocketRef × SocketType)
  | .graph ins _ _ => ins
  | .imported _ ins _ => ins

/-- Node outputs method from graph.rs: a GraphNode exposes its own
output map, an ImportedNode exposes the values of its inner graph's
outputs. -/
def Node.outputsOf : Node → List (Name × SocketValue)
  | .graph _ outs _ => outs
  | .imported _ _ inner => inner.outputs.map (fun x => (x.1, x.2.2))

/-- Association list lookup, modelling HashMap get on a map whose keys
are unique. -/
def lookupA : List (String × α) → String → Option α
  | [], _ => none
  | (k, v) :: rest, key => if k = key then some v else lookupA rest key

/-- Association list in-place update of the first matching key,
modelling writing through HashMap get_mut; a missing key leaves the
list unchanged (the callers only update keys they just looked up). -/
def setA : List (String × α) → String → α → List (String × α)
  | [], _, _ => []
  | (k, v) :: rest, key, nv =>
    if k = key then (k, nv) :: rest else (k, v) :: setA rest key nv

/-- Membership of a key, modelling HashMap contains_key. -/
def containsA (l : List (String × α)) (key : String) : Bool :=
  (lookupA l key).isSome

/-- HashMap insert: replace the value of an existing key, or add a new
binding (placed at the end of the association list). -/
def insertA (l : List (String × α)) (key : String) (nv : α) :
    List (String × α) :=
  if containsA l key then setA l key nv else l ++ [(key, nv)]

/-- Replace a node of the graph (writing through nodes.get_mut). -/
def Graph.updateNode (g : Graph) (nid : NodeId) (nd : Node) : Graph :=
  .mk g.inputs g.outputs (setA g.nodes nid nd)

/-- Replace the outputs map of the graph. -/
def Graph.withOutputs (g : Graph)
    (outs : List (Name × Option SocketRef × SocketValue)) : Graph :=
  .mk g.inputs outs g.nodes

/-- Outcome of a fuelled computation over the graph: a value, a graph
Error, a Rust panic (unwrap or unreachable in the source), or fuel
exhaustion (an artefact of the model, never of the source). -/
inductive RRes (α : Type) where
  | ok (a : α)
  | err (e : GError)
  | panic
  | nofuel
deriving Repr

/-- State of the validation walk in Graph::validate: the current path
stack, the visited list and the next deque, all declared once outside
the outputs loop in the source and therefore persisting across
outputs. -/
structure WalkSt where
  path : List NodeId
  visited : List NodeId
  next : List NodeId
deriving DecidableEq, Repr

/-- Inner for-loop over the inputs of the node currently being visited
(Graph::validate): unlinked inputs and graph-input references are
skipped; a node reference already on the path is a Cycle error built
from the path, the input socket, the referenced socket and the detected
node; an already-visited reference is skipped; anything else is pushed
(the returned list is in encounter order, its reverse lands on the
front of the deque, matching the push_front calls) together with the
pushed_some flag. -/
def processInputs (path visited : List NodeId) :
    List (Name × Option SocketRef × SocketType) →
    Except GError (List NodeId × Bool)
  | [] => .ok ([], false)
  | (inputName, ref, _ty) :: rest =>
    match ref with
    | none => processInputs path visited rest
    | some (.graph _) => processInputs path visited rest
    | some (.node nid socket) =>
      if nid ∈ path then
        .error (.Cycle path inputName socket nid)
      else if nid ∈ visited then
        processInputs path visited rest
      else
        match processInputs path visited rest with
        | .error e => .error e
        | .ok (pushed, _) => .ok (nid :: pushed, true)

/-- While-loop of Graph::validate popping the next deque: a missing
node id is skipped; otherwise the node is appended to visited and path,
its inputs are scanned, and the path entry is popped again when nothing
was pushed. -/
def walk (g : Graph) (fuel : Nat) (st : WalkSt) : RRes WalkSt :=
  if h : fuel = 0 then .nofuel
  else
    match st.next with
    | [] => .ok st
    | currentId :: rest =>
      match lookupA g.nodes currentId with
      | none => walk g (fuel - 1) ⟨st.path, st.visited, rest⟩
      | some node =>
        match processInputs (st.path ++ [currentId])
            (st.visited ++ [currentId]) node.inputsOf with
        | .error e => .err e
        | .ok (pushed, pushedSome) =>
          walk g (fuel - 1)
            ⟨if pushedSome then st.path ++ [currentId] else st.path,
              st.visited ++ [currentId],
              pushed.reverse ++ rest⟩
termination_by fuel
decreasing_by
  all_goals exact Nat.sub_lt (Nat.pos_of_ne_zero h) Nat.one_pos

/-- Outer for-loop of Graph::validate over the declared graph outputs:
an unlinked output must already carry a value, a graph-input reference
is trivially fine, a node reference already visited from an earlier
output is skipped, and otherwise the referenced node is pushed and the
walk is run. -/
def checkOutputs (g : Graph) (fuel : Nat) :
    List (Name × Option SocketRef × SocketValue) → WalkSt → RRes WalkSt
  | [], st => .ok st
  | (outName, ref, value) :: rest, st =>
    match ref with
    | none =>
      if value.isNoneV then .err (.UnlinkeUnsetdGraphOutput outName)
      else checkOutputs g fuel rest st
    | some (.graph _) => checkOutputs g fuel rest st
    | some (.node nid _socket) =>
      if nid ∈ st.visited then checkOutputs g fuel rest st
      else
        match walk g fuel ⟨st.path, st.visited, st.next ++ [nid]⟩ with
        | .ok st' => checkOutputs g fuel rest st'
        | .err e => .err e
        | .panic => .panic
        | .nofuel => .nofuel

mutual

/-- Graph::validate: run the output walks, then validate every node
(recursively validating imported sub-graphs) and rebuild the graph with
the same inputs, outputs and validated nodes. -/
def validateF (fuel : Nat) (g : Graph) : RRes Graph :=
  if h : fuel = 0 then .nofuel
  else
    match checkOutputs g (fuel - 1) g.outputs ⟨[], [], []⟩ with
    | .ok _ =>
      match validateNodesF (fuel - 1) g.nodes with
      | .ok ns => .ok (.mk g.inputs g.outputs ns)
      | .err e => .err e
      | .panic => .panic
      | .nofuel => .nofuel
    | .err e => .err e
    | .panic => .panic
    | .nofuel => .nofuel
termination_by (fuel, 0)
decreasing_by
  all_goals apply Prod.Lex.left
  all_goals omega

/-- Node map validation: each node is validated in turn, rebuilding the
association list (the into_iter map collect of Graph::validate). -/
def validateNodesF (fuel : Nat) (l : List (NodeId × Node)) :
    RRes (List (NodeId × Node)) :=
  match l with
  | [] => .ok []
  | (k, nd) :: rest =>
    match validateNodeF fuel nd with
    | .ok ndv =>
      match validateNodesF fuel rest with
      | .ok ns => .ok ((k, ndv) :: ns)
      | .err e => .err e
      | .panic => .panic
      | .nofuel => .nofuel
    | .err e => .err e
    | .panic => .panic
    | .nofuel => .nofuel
termination_by (fuel, l.length + 2)
decreasing_by
  all_goals apply Prod.Lex.right
  all_goals simp
  all_goals omega

/-- Node::validate: a GraphNode passes through unchanged, an
ImportedNode validates its inner graph (ImportedNode::validate). -/
def validateNodeF (fuel : Nat) (nd : Node) : RRes Node :=
  match nd with
  | .graph ins outs s => .ok (.graph ins outs s)
  | .imported nm ins inner =>
    match validateF fuel inner with
    | .ok innerV => .ok (.imported nm ins innerV)
    | .err e => .err e
    | .panic => .panic
    | .nofuel => .nofuel
termination_by (fuel, 1)
decreasing_by
  all_goals apply Prod.Lex.right
  all_goals omega

end

/-- Trace of shading-function invocations produced by a run: each entry
is the nesting path of the GraphNode whose shader was called, relative
to the graph the run was started on (a top-level node contributes its
own id, a node inside an imported sub-graph is prefixed with the
importing node's id, and so on). -/
abbrev Trace := List (List NodeId)

mutual

/-- Graph::run on a validated graph: the outputs map is replaced by the
result of filtering the cloned outputs down to the entries whose value
is unset and resolving each of those (so entries that already carry a
value are dropped from the map, exactly as the filter-collect in the
source does). -/
def runF (fuel : Nat) (g : Graph) : RRes Graph × Trace :=
  if h : fuel = 0 then (.nofuel, [])
  else
    match runOutsF (fuel - 1) g (g.outputs.filter (fun x => x.2.2.isNoneV)) with
    | (.ok (outs, g₁), tr) => (.ok (g₁.withOutputs outs), tr)
    | (.err e, tr) => (.err e, tr)
    | (.panic, tr) => (.panic, tr)
    | (.nofuel, tr) => (.nofuel, tr)
termination_by (fuel, 0)
decreasing_by
  all_goals apply Prod.Lex.left
  all_goals omega

/-- Map-collect over the filtered outputs of Graph::run: an unlinked
(and necessarily unset) output is set to its kind default; a linked
output is resolved through its SocketRef, running the producing node
first when needed. -/
def runOutsF (fuel : Nat) (g : Graph)
    (l : List (Name × Option SocketRef × SocketValue)) :
    RRes (List (Name × Option SocketRef × SocketValue) × Graph) × Trace :=
  match g, l with
  | g, [] => (.ok ([], g), [])
  | g, (name, ref, value) :: rest =>
    match ref with
    | none =>
      match runOutsF fuel g rest with
      | (.ok (outs, g'), tr) =>
        (.ok ((name, none, value.setDefault) :: outs, g'), tr)
      | (.err e, tr) => (.err e, tr)
      | (.panic, tr) => (.panic, tr)
      | (.nofuel, tr) => (.nofuel, tr)
    | some r =>
      match resolveRefF fuel g r with
      | (.ok (v, g₁), tr₁) =>
        match runOutsF fuel g₁ rest with
        | (.ok (outs, g₂), tr₂) =>
          (.ok ((name, some r, v) :: outs, g₂), tr₁ ++ tr₂)
        | (.err e, tr₂) => (.err e, tr₁ ++ tr₂)
        | (.panic, tr₂) => (.panic, tr₁ ++ tr₂)
        | (.nofuel, tr₂) => (.nofuel, tr₁ ++ tr₂)
      | (.err e, tr) => (.err e, tr)
      | (.panic, tr) => (.panic, tr)
      | (.nofuel, tr) => (.nofuel, tr)
termination_by (fuel, l.length + 1)
decreasing_by
  all_goals apply Prod.Lex.right
  all_goals simp_arith

/-- Resolution of one SocketRef, shared shape of the two match blocks
in Graph::run and Graph::run_node: a graph-input reference reads the
input map (unwrap panics when absent); a node reference runs the node,
then reads the referenced output socket (unwrap or panic when the node
or socket is absent). -/
def resolveRefF (fuel : Nat) (g : Graph) (r : SocketRef) :
    RRes (SocketValue × Graph) × Trace :=
  if h : fuel = 0 then (.nofuel, [])
  else
    match r with
    | .graph field =>
      match lookupA g.inputs field with
      | some v => (.ok (v, g), [])
      | none => (.panic, [])
    | .node id field =>
      match runNodeF (fuel - 1) g id with
      | (.ok g₁, tr) =>
        match lookupA g₁.nodes id with
        | none => (.panic, tr)
        | some nd =>
          match lookupA nd.outputsOf field with
          | some v => (.ok (v, g₁), tr)
          | none => (.panic, tr)
      | (.err e, tr) => (.err e, tr)
      | (.panic, tr) => (.panic, tr)
      | (.nofuel, tr) => (.nofuel, tr)
termination_by (fuel, 0)
decreasing_by
  all_goals apply Prod.Lex.left
  all_goals omega

/-- Graph::run_node: panic when the node id is missing (unwrap in the
source); short-circuit when every output of the node already has a
value; otherwise resolve the inputs of a clone of the node and either
invoke the GraphNode's shader on the current output map, or run the
ImportedNode's inner graph after writing its inputs. -/
def runNodeF (fuel : Nat) (g : Graph) (nid : NodeId) : RRes Graph × Trace :=
  if h : fuel = 0 then (.nofuel, [])
  else
    match lookupA g.nodes nid with
    | none => (.panic, [])
    | some nd =>
      if nd.outputsOf.all (fun x => !x.2.isNoneV) then (.ok g, [])
      else
        match nd with
        | .graph ins _outs _s =>
          match runInputsGF (fuel - 1) g ins [] with
          | (.ok (snapshot, g₁), tr₁) =>
            match lookupA g₁.nodes nid with
            | some (.graph ins₁ outs₁ s₁) =>
              match s₁.call snapshot outs₁ with
              | .ok outs' =>
                (.ok (g₁.updateNode nid (.graph ins₁ outs' s₁)),
                  tr₁ ++ [[nid]])
              | .error msg => (.err (.Shader msg), tr₁ ++ [[nid]])
            | _ => (.panic, tr₁)
          | (.err e, tr) => (.err e, tr)
          | (.panic, tr) => (.panic, tr)
          | (.nofuel, tr) => (.nofuel, tr)
        | .imported _nm ins _inner =>
          match runInputsImpF (fuel - 1) g nid ins with
          | (.ok g₁, tr₁) =>
            match lookupA g₁.nodes nid with
            | some (.imported nm₁ ins₁ inner₁) =>
              match runF (fuel - 1) inner₁ with
              | (.ok innerR, tr₂) =>
                (.ok (g₁.updateNode nid (.imported nm₁ ins₁ innerR)),
                  tr₁ ++ tr₂.map (fun p => nid :: p))
              | (.err e, tr₂) => (.err e, tr₁ ++ tr₂.map (fun p => nid :: p))
              | (.panic, tr₂) => (.panic, tr₁ ++ tr₂.map (fun p => nid :: p))
              | (.nofuel, tr₂) => (.nofuel, tr₁ ++ tr₂.map (fun p => nid :: p))
            | _ => (.panic, tr₁)
          | (.err e, tr) => (.err e, tr)
          | (.panic, tr) => (.panic, tr)
          | (.nofuel, tr) => (.nofuel, tr)
termination_by (fuel, 0)
decreasing_by
  all_goals apply Prod.Lex.left
  all_goals omega

/-- Input resolution loop for a GraphNode (run_node): build the
snapshot map passed to the shader; an unlinked input contributes an
unset value of its declared type (type into SocketValue in the
source). -/
def runInputsGF (fuel : Nat) (g : Graph)
    (l : List (Name × Option SocketRef × SocketType))
    (acc : List (Name × SocketValue)) :
    RRes (List (Name × SocketValue) × Graph) × Trace :=
  match g, l, acc with
  | g, [], acc => (.ok (acc, g), [])
  | g, (name, ref, ty) :: rest, acc =>
    match ref with
    | none => runInputsGF fuel g rest (insertA acc name ty.toValue)
    | some r =>
      match resolveRefF fuel g r with
      | (.ok (v, g₁), tr₁) =>
        match runInputsGF fuel g₁ rest (insertA acc name v) with
        | (res, tr₂) => (res, tr₁ ++ tr₂)
      | (.err e, tr) => (.err e, tr)
      | (.panic, tr) => (.panic, tr)
      | (.nofuel, tr) => (.nofuel, tr)
termination_by (fuel, l.length + 1)
decreasing_by
  all_goals apply Prod.Lex.right
  all_goals simp_arith

/-- Input resolution loop for an ImportedNode (run_node): a linked
input is resolved and inserted into the inner graph's input map; an
unlinked input sets the existing inner input to its default (get_mut
unwrap panics when the inner graph has no input of that name). -/
def runInputsImpF (fuel : Nat) (g : Graph) (nid : NodeId)
    (l : List (Name × Option SocketRef × SocketType)) : RRes Graph × Trace :=
  match g, l with
  | g, [] => (.ok g, [])
  | g, (name, ref, _ty) :: rest =>
    match ref with
    | some r =>
      match resolveRefF fuel g r with
      | (.ok (v, g₁), tr₁) =>
        match lookupA g₁.nodes nid with
        | some (.imported nm ins inner) =>
          match runInputsImpF fuel
              (g₁.updateNode nid (.imported nm ins
                (.mk (insertA inner.inputs name v) inner.outputs inner.nodes)))
              nid rest with
          | (res, tr₂) => (res, tr₁ ++ tr₂)
        | _ => (.panic, tr₁)
      | (.err e, tr) => (.err e, tr)
      | (.panic, tr) => (.panic, tr)
      | (.nofuel, tr) => (.nofuel, tr)
    | none =>
      match lookupA g.nodes nid with
      | some (.imported nm ins inner) =>
        match lookupA inner.inputs name with
        | some v =>
          runInputsImpF fuel
            (g.updateNode nid (.imported nm ins
              (.mk (setA inner.inputs name v.setDefault)
                inner.outputs inner.nodes)))
            nid rest
        | none => (.panic, [])
      | _ => (.panic, [])
termination_by (fuel, l.length + 1)
decreasing_by
  all_goals apply Prod.Lex.right
  all_goals simp_arith

end

/-- Modelled from the spec: the Signature type used by graph.rs is
absent from the source snapshot (the mod.rs in the snapshot holds an
older String-keyed version).  Per the spec it is a pair of
name-to-socket-type maps for inputs and outputs, and two signatures are
equal iff both maps are equal as sets of name-type pairs, order
independently; the maps are therefore modelled as finite sets of
pairs. -/
structure Signature where
  input : Finset (Name × SocketType)
  output : Finset (Name × SocketType)
deriving DecidableEq

/-- Collect an iterator of name-type pairs into a HashMap: later
bindings of the same key overwrite earlier ones. -/
def collectHM (l : List (Name × SocketType)) : List (Name × SocketType) :=
  l.foldl (fun acc x => insertA acc x.1 x.2) []

/-- Name-and-type pairs of a node's declared inputs (the SocketRef is
dropped), exactly the iterator mapped in Node::signature. -/
def inputPairs (n : Node) : List (Name × SocketType) :=
  n.inputsOf.map (fun x => (x.1, x.2.2))

/-- Name-and-kind pairs of a node's outputs (the cached value is
projected to its kind), exactly the iterator mapped in
Node::signature. -/
def outputPairs (n : Node) : List (Name × SocketType) :=
  n.outputsOf.map (fun x => (x.1, kindOf x.2))

/-- Node::signature from graph.rs: the input map pairs each declared
input name with its declared type (dropping the SocketRef), the output
map pairs each output name with the kind of its current value.  For an
imported node this agrees with ImportedNode::signature, whose inputs
come from the node's input map and whose outputs are the kinds of the
inner graph's output values. -/
def Node.signature (n : Node) : Signature :=
  ⟨(collectHM (inputPairs n)).toFinset, (collectHM (outputPairs n)).toFinset⟩

/-- Image kinds of the socket type enum. -/
def SocketType.isImage : SocketType → Bool
  | .IValue => true
  | .IVec2 => true
  | .IVec3 => true
  | .IColor => true
  | _ => false

/-- Conversion table as enumerated by the specification: Value to
Vec2, Vec3 and Color; Vec2 to Value; Vec3 to Value and Color; Color to
Value and Vec3; and the image counterpart of each scalar pair.  This
definition follows the words of the spec and is compared against
tryConvert, which follows the source. -/
def specConvTable : List (SocketType × SocketType) :=
  [(.Value, .Vec2), (.Value, .Vec3), (.Value, .Color),
    (.Vec2, .Value),
    (.Vec3, .Value), (.Vec3, .Color),
    (.Color, .Value), (.Color, .Vec3),
    (.IValue, .IVec2), (.IValue, .IVec3), (.IValue, .IColor),
    (.IVec2, .IValue),
    (.IVec3, .IValue), (.IVec3, .IColor),
    (.IColor, .IValue), (.IColor, .IVec3)]

/-- Success of try_convert depends only on the pair of kinds: it
succeeds exactly on the pairs of the table. -/
theorem tryConvert_isOk_iff (v : SocketValue) (t : SocketType) :
    (tryConvert v t).isOk = true ↔ (kindOf v, t) ∈ specConvTable := by
  cases v <;> cases t <;>
    simp [tryConvert, specConvTable, kindOf, Except.isOk, Except.toBool]

/-- C8 counterexample: try_convert does fail on every unlisted pair,
but its failure is the unit error of the source, which cannot identify
the two kinds: two failures at different kind pairs produce equal
errors, so no function can read the kind pair back off the error. -/
theorem C8_error_not_typed :
    tryConvert (SocketValue.Vec2 none) SocketType.Color = .error () ∧
    tryConvert (SocketValue.Color none) SocketType.Vec2 = .error () ∧
    ¬ ∃ f : Unit → SocketType × SocketType,
        ∀ v t, tryConvert v t = .error () → f () = (kindOf v, t) := by
  refine ⟨rfl, rfl, ?_⟩
  rintro ⟨f, hf⟩
  have h1 := hf (.Vec2 none) .Color rfl
  have h2 := hf (.Color none) .Vec2 rfl
  rw [h1] at h2
  simp [kindOf] at h2

/-- C8 amended: try_convert succeeds exactly on the pairs of kinds of
the conversion table (element-wise on the image pairs) and fails on
every unlisted pair; the failure is the bare unit error, carrying no
information about the kinds. -/
theorem C8_conversion_table (v : SocketValue) (t : SocketType) :
    ((tryConvert v t).isOk = true ↔ (kindOf v, t) ∈ specConvTable) ∧
    ((tryConvert v t).isOk = false → tryConvert v t = .error ()) := by
  refine ⟨tryConvert_isOk_iff v t, ?_⟩
  intro h
  cases hc : tryConvert v t with
  | ok w => rw [hc] at h; simp [Except.isOk, Except.toBool] at h
  | error e => cases e; rfl

/-- C8 witness: the Value-to-Color entry of the table succeeds, and an
unlisted pair fails with the unit error. -/
theorem C8_conversion_table_witness :
    (tryConvert (SocketValue.Value (some 1)) SocketType.Color).isOk = true ∧
    tryConvert (SocketValue.Value (some 1)) SocketType.IVec3 = .error () := by
  constructor
  · exact (C8_conversion_table (SocketValue.Value (some 1)) SocketType.Color).1.mpr
      (by decide)
  · exact (C8_conversion_table (SocketValue.Value (some 1)) SocketType.IVec3).2 rfl

/-- Every pair of the conversion table relates two scalar kinds or two
image kinds. -/
theorem specConvTable_isImage (a b : SocketType) :
    (a, b) ∈ specConvTable → a.isImage = b.isImage := by
  cases a <;> cases b <;> decide

/-- C10: conversion to a value's own kind always fails (the table has
no identity pairs), conversion between a scalar kind and an image kind
fails in either direction, and every successful conversion is a
scalar-to-scalar or image-to-image pair of the table. -/
theorem C10_no_identity_no_cross_image :
    (∀ v : SocketValue, (tryConvert v (kindOf v)).isOk = false) ∧
    (∀ (v : SocketValue) (t : SocketType),
      (kindOf v).isImage ≠ t.isImage → (tryConvert v t).isOk = false) ∧
    (∀ (v : SocketValue) (t : SocketType), (tryConvert v t).isOk = true →
      (kindOf v).isImage = t.isImage ∧ (kindOf v, t) ∈ specConvTable) := by
  refine ⟨?_, ?_, ?_⟩
  · intro v
    cases v <;> rfl
  · intro v t h
    cases hc : (tryConvert v t).isOk
    · rfl
    · exact absurd (specConvTable_isImage _ _ ((tryConvert_isOk_iff v t).mp hc)) h
  · intro v t h
    have hm := (tryConvert_isOk_iff v t).mp h
    exact ⟨specConvTable_isImage _ _ hm, hm⟩

/-- C10 witness: identity conversion on a set Value fails, scalar to
image fails, and a successful scalar conversion lands in the table. -/
theorem C10_no_identity_no_cross_image_witness :
    (tryConvert (SocketValue.Value (some 2)) (kindOf (SocketValue.Value (some 2)))).isOk
      = false ∧
    (tryConvert (SocketValue.Value (some 2)) SocketType.IValue).isOk = false ∧
    ((kindOf (SocketValue.Vec3 none)).isImage = SocketType.Value.isImage ∧
      (kindOf (SocketValue.Vec3 none), SocketType.Value) ∈ specConvTable) := by
  refine ⟨C10_no_identity_no_cross_image.1 (SocketValue.Value (some 2)), ?_, ?_⟩
  · exact C10_no_identity_no_cross_image.2.1 (SocketValue.Value (some 2))
      SocketType.IValue (by decide)
  · exact C10_no_identity_no_cross_image.2.2 (SocketValue.Vec3 none)
      SocketType.Value (by rfl)

/-- Shader::default of the source: a noop shading function that leaves
the output map untouched and succeeds. -/
def noopShader : Shader := ⟨fun _ outs => .ok outs⟩

/-- Counting-style identity shader used by the repository's tests: it
copies the Value input named value to the output named value,
defaulting to zero, and its invocations are observable in the run
trace. -/
def copyShader : Shader := ⟨fun ins outs =>
  match lookupA ins "value" with
  | some (.Value (some v)) => .ok (setA outs "value" (.Value (some v)))
  | _ => .ok (setA outs "value" (.Value (some 0)))⟩

/-- Validated one-node graph: input iFac set to 2, node id copying it,
output oFac linked to the node. -/
def gRun1 : Graph := .mk
  [("iFac", .Value (some 2))]
  [("oFac", (some (.node "id" "value"), .Value none))]
  [("id", .graph [("value", (some (.graph "iFac"), .Value))]
    [("value", .Value none)] copyShader)]

/-- State of gRun1 after one run: the output carries 2 and the node's
output cache is filled. -/
def gRun1after : Graph := .mk
  [("iFac", .Value (some 2))]
  [("oFac", (some (.node "id" "value"), .Value (some 2)))]
  [("id", .graph [("value", (some (.graph "iFac"), .Value))]
    [("value", .Value (some 2))] copyShader)]

/-- C1: the first run of the validated graph gRun1 fills its output map
and invokes the single shading function once, but the second run, far
from leaving the output map unchanged, filters every already-set output
out of the map and returns an empty outputs map (it does invoke no
shading function).  This contradicts the claimed idempotence: the
output oFac present with value 2 after the first call is gone after the
second. -/
theorem C1_second_run_empties_outputs :
    validateF 10 gRun1 = .ok gRun1 ∧
    runF 10 gRun1 = (.ok gRun1after, [["id"]]) ∧
    lookupA gRun1after.outputs "oFac"
      = some (some (.node "id" "value"), .Value (some 2)) ∧
    runF 10 gRun1after = (.ok (gRun1after.withOutputs []), []) ∧
    lookupA (gRun1after.withOutputs []).outputs "oFac" = none := by
  refine ⟨?_, ?_, ?_, ?_, ?_⟩ <;>
    simp [validateF, validateNodesF, validateNodeF, checkOutputs, walk,
      processInputs, runF, runOutsF, resolveRefF, runNodeF, runInputsGF,
      runInputsImpF, lookupA, setA, insertA, containsA, Graph.inputs,
      Graph.outputs, Graph.nodes, Graph.withOutputs, Graph.updateNode,
      Node.inputsOf, Node.outputsOf, SocketValue.isNoneV,
      SocketValue.setDefault, SocketType.toValue, copyShader, noopShader,
      gRun1, gRun1after]

/-- Acyclic four-node diamond: the single output pulls node a, a reads
nodes x and y, x reads y, y reads leaf l. -/
def gDag : Graph := .mk
  []
  [("out", (some (.node "a" "o"), .Value none))]
  [("a", .graph
      [("i1", (some (.node "x" "o"), .Value)),
        ("i2", (some (.node "y" "o"), .Value))]
      [("o", .Value none)] noopShader),
    ("x", .graph [("i", (some (.node "y" "o"), .Value))]
      [("o", .Value none)] noopShader),
    ("y", .graph [("i", (some (.node "l" "o"), .Value))]
      [("o", .Value none)] noopShader),
    ("l", .graph ([] : List (Name × Option SocketRef × SocketType))
      [("o", .Value none)] noopShader)]

/-- One step along a node-to-node link: node a exists and one of its
inputs references an output socket of node b. -/
def LinkStep (g : Graph) (a b : NodeId) : Prop :=
  ∃ nd, lookupA g.nodes a = some nd ∧
    ∃ x ∈ nd.inputsOf, ∃ sock, x.2.1 = some (SocketRef.node b sock)

/-- Closed walk of node-to-node links through c: a nonempty chain of
link steps starting and ending at c. -/
def HasCycleAt (g : Graph) (c : NodeId) : Prop :=
  ∃ l, l ≠ [] ∧ List.Chain (LinkStep g) c l ∧ l.getLast? = some c

/-- Node n is reachable from a declared graph output by following the
output's SocketRef and then node-to-node links. -/
def ReachableFromOutput (g : Graph) (n : NodeId) : Prop :=
  ∃ outName sock v n₀ l,
    (outName, some (SocketRef.node n₀ sock), v) ∈ g.outputs ∧
    List.Chain (LinkStep g) n₀ l ∧ (n₀ :: l).getLast? = some n

/-- A directed cycle among node-to-node links reachable from some
declared graph output. -/
def HasReachableCycle (g : Graph) : Prop :=
  ∃ c, ReachableFromOutput g c ∧ HasCycleAt g c

/-- Keys found by lookupA are bindings of the list. -/
theorem lookupA_mem {l : List (String × α)} {key : String} {v : α} :
    lookupA l key = some v → (key, v) ∈ l := by
  induction l with
  | nil => intro h; simp [lookupA] at h
  | cons hd tl ih =>
    intro h
    rw [lookupA] at h
    by_cases hk : hd.1 = key
    · rcases hd with ⟨k, w⟩
      simp only [hk, if_pos] at h
      simp_all
    · rcases hd with ⟨k, w⟩
      simp only [hk, if_neg, if_false] at h
      exact List.mem_cons_of_mem _ (ih h)

/-- Membership of the last element reported by getLast?. -/
theorem mem_of_getLastQ {l : List α} {a : α} (h : l.getLast? = some a) :
    a ∈ l := by
  induction l with
  | nil => simp at h
  | cons hd tl ih =>
    cases tl with
    | nil =>
      simp [List.getLast?] at h
      simp [h]
    | cons hd2 tl2 =>
      rw [List.getLast?_cons_cons] at h
      exact List.mem_cons_of_mem _ (ih h)

/-- Along a chain of rank-decreasing steps every element has smaller
rank than the start. -/
theorem rank_of_chain (g : Graph) (rank : NodeId → Nat)
    (hr : ∀ a b, LinkStep g a b → rank b < rank a) :
    ∀ (l : List NodeId) (a : NodeId), List.Chain (LinkStep g) a l →
      ∀ x ∈ l, rank x < rank a := by
  intro l
  induction l with
  | nil => intro a _ x hx; simp at hx
  | cons hd tl ih =>
    intro a hch x hx
    rcases List.chain_cons.mp hch with ⟨hab, htl⟩
    rcases List.mem_cons.mp hx with hx | hx
    · subst hx; exact hr a x hab
    · exact lt_trans (ih hd htl x hx) (hr a hd hab)

/-- A graph admitting a strictly decreasing rank along link steps has
no closed walk. -/
theorem no_cycle_of_rank (g : Graph) (rank : NodeId → Nat)
    (hr : ∀ a b, LinkStep g a b → rank b < rank a) (c : NodeId) :
    ¬ HasCycleAt g c := by
  rintro ⟨l, hne, hch, hlast⟩
  have hc : c ∈ l := mem_of_getLastQ hlast
  exact lt_irrefl (rank c) (rank_of_chain g rank hr l c hch c hc)

/-- Topological rank for the diamond graph gDag. -/
def dagRank (n : NodeId) : Nat :=
  if n = "a" then 3 else if n = "x" then 2 else if n = "y" then 1 else 0

/-- Every link step of gDag strictly decreases dagRank. -/
theorem gDag_rank_decreasing :
    ∀ a b, LinkStep gDag a b → dagRank b < dagRank a := by
  rintro a b ⟨nd, hnd, x, hx, sock, hs⟩
  have hmem := lookupA_mem hnd
  simp only [gDag, Graph.nodes, List.mem_cons, List.not_mem_nil,
    or_false] at hmem
  rcases hmem with h | h | h | h <;>
    (obtain ⟨ha, hnd2⟩ := Prod.mk.injEq .. ▸ h ; subst ha ; subst hnd2 ;
      simp only [Node.inputsOf, List.mem_cons, List.not_mem_nil,
        or_false] at hx) <;>
    (rcases hx with hx | hx <;> try subst hx) <;>
    simp_all <;>
    (try obtain ⟨hb, _⟩ := hs) <;>
    (try subst hb) <;>
    decide

/-- C2: the diamond graph gDag is acyclic, yet validate reports a Cycle
error: processing output out walks a, pushes x and y, explores y and l,
and then, because interior path entries are never popped, sees the
stale path a, y, x when examining the x-to-y edge and wrongly declares
a cycle at y. -/
theorem C2_false_cycle_on_acyclic_graph :
    validateF 10 gDag = .err (.Cycle ["a", "y", "x"] "i" "o" "y") ∧
    ¬ HasReachableCycle gDag := by
  refine ⟨?_, ?_⟩
  · simp [validateF, validateNodesF, validateNodeF, checkOutputs, walk,
      processInputs, runF, runOutsF, resolveRefF, runNodeF, runInputsGF,
      runInputsImpF, lookupA, setA, insertA, containsA, Graph.inputs,
      Graph.outputs, Graph.nodes, Graph.withOutputs, Graph.updateNode,
      Node.inputsOf, Node.outputsOf, SocketValue.isNoneV,
      SocketValue.setDefault, SocketType.toValue, copyShader, noopShader, gDag]
  · rintro ⟨c, _, hcyc⟩
    exact no_cycle_of_rank gDag dagRank gDag_rank_decreasing c hcyc

/-- Two-node cycle of the repository's own cycle-detection test: nodes
a and b reference each other and the output pulls a. -/
def gCyc : Graph := .mk
  []
  [("value", (some (.node "a" "value"), .Value none))]
  [("a", .graph [("value", (some (.node "b" "value"), .Value))]
      [("value", .Value none)] noopShader),
    ("b", .graph [("value", (some (.node "a" "value"), .Value))]
      [("value", .Value none)] noopShader)]

/-- C4 counterexample: on the cyclic graph of the repository's own test
validate does fail with a Cycle error naming both sockets, but the
reported path is a, b with detected node a: the path's first and last
nodes are a and b, which are not the same node. -/
theorem C4_path_ends_differ :
    validateF 10 gCyc = .err (.Cycle ["a", "b"] "value" "value" "a") ∧
    (["a", "b"] : List NodeId).head? = some "a" ∧
    (["a", "b"] : List NodeId).getLast? = some "b" ∧
    ("a" : NodeId) ≠ "b" := by
  refine ⟨?_, rfl, rfl, by decide⟩
  simp [validateF, validateNodesF, validateNodeF, checkOutputs, walk,
      processInputs, runF, runOutsF, resolveRefF, runNodeF, runInputsGF,
      runInputsImpF, lookupA, setA, insertA, containsA, Graph.inputs,
      Graph.outputs, Graph.nodes, Graph.withOutputs, Graph.updateNode,
      Node.inputsOf, Node.outputsOf, SocketValue.isNoneV,
      SocketValue.setDefault, SocketType.toValue, copyShader, noopShader, gCyc]

/-- Cyclic graph with an additional unlinked and unset output iterated
after the cycle-carrying output. -/
def gPreempt : Graph := .mk
  []
  [("c", (some (.node "a" "value"), .Value none)),
    ("u", (none, .Value none))]
  [("a", .graph [("value", (some (.node "b" "value"), .Value))]
      [("value", .Value none)] noopShader),
    ("b", .graph [("value", (some (.node "a" "value"), .Value))]
      [("value", .Value none)] noopShader)]

/-- Graph with zero declared outputs whose only node imports a
sub-graph carrying an unlinked and unset output. -/
def gZeroOut : Graph := .mk
  []
  []
  [("imp", .imported "sub" []
    (.mk [] [("o", (none, .Value none))] []))]

/-- C6 counterexample: gPreempt has an unlinked and unset declared
output u, yet validate fails with a Cycle error instead of the
unlinked-and-unset error (the cycle-carrying output is iterated
first); and gZeroOut has zero declared outputs, yet validate fails
with the unlinked-and-unset error raised while recursively validating
the imported sub-graph.  Both directions of the claimed equivalence
and the zero-outputs clause are therefore false as stated. -/
theorem C6_unlinked_error:
    validateF 10 gPreempt = .err (.Cycle ["a", "b"] "value" "value" "a") ∧
    ("u", none, SocketValue.Value none) ∈ gPreempt.outputs ∧
    (SocketValue.Value none).isNoneV = true ∧
    validateF 10 gZeroOut = .err (.UnlinkeUnsetdGraphOutput "o") ∧
    gZeroOut.outputs = [] := by
  refine ⟨?_, ?_, rfl, ?_, rfl⟩
  · simp [validateF, validateNodesF, validateNodeF, checkOutputs, walk,
      processInputs, runF, runOutsF, resolveRefF, runNodeF, runInputsGF,
      runInputsImpF, lookupA, setA, insertA, containsA, Graph.inputs,
      Graph.outputs, Graph.nodes, Graph.withOutputs, Graph.updateNode,
      Node.inputsOf, Node.outputsOf, SocketValue.isNoneV,
      SocketValue.setDefault, SocketType.toValue, copyShader, noopShader, gPreempt]
  · simp [gPreempt, Graph.outputs]
  · simp [validateF, validateNodesF, validateNodeF, checkOutputs, walk,
      processInputs, runF, runOutsF, resolveRefF, runNodeF, runInputsGF,
      runInputsImpF, lookupA, setA, insertA, containsA, Graph.inputs,
      Graph.outputs, Graph.nodes, Graph.withOutputs, Graph.updateNode,
      Node.inputsOf, Node.outputsOf, SocketValue.isNoneV,
      SocketValue.setDefault, SocketType.toValue, copyShader, noopShader, gZeroOut]

/-- Validated graph whose only output is unlinked but already set. -/
def gSetUnlinked : Graph := .mk [] [("o", (none, .Value (some 5)))] []

/-- C3 counterexample: gSetUnlinked is Validated (validate succeeds on
it) and its declared output o has no SocketRef, yet after run the
outputs map no longer contains o at all: run drops every already-set
output, so the unlinked output neither stays nor takes its kind's
default. -/
theorem C3_unlinked_set_output_dropped :
    validateF 10 gSetUnlinked = .ok gSetUnlinked ∧
    runF 10 gSetUnlinked = (.ok (.mk [] [] []), []) ∧
    lookupA (Graph.outputs (.mk [] [] [])) "o" = none := by
  refine ⟨?_, ?_, rfl⟩
  · simp [validateF, validateNodesF, validateNodeF, checkOutputs, walk,
      processInputs, runF, runOutsF, resolveRefF, runNodeF, runInputsGF,
      runInputsImpF, lookupA, setA, insertA, containsA, Graph.inputs,
      Graph.outputs, Graph.nodes, Graph.withOutputs, Graph.updateNode,
      Node.inputsOf, Node.outputsOf, SocketValue.isNoneV,
      SocketValue.setDefault, SocketType.toValue, copyShader, noopShader, gSetUnlinked]
  · simp [validateF, validateNodesF, validateNodeF, checkOutputs, walk,
      processInputs, runF, runOutsF, resolveRefF, runNodeF, runInputsGF,
      runInputsImpF, lookupA, setA, insertA, containsA, Graph.inputs,
      Graph.outputs, Graph.nodes, Graph.withOutputs, Graph.updateNode,
      Node.inputsOf, Node.outputsOf, SocketValue.isNoneV,
      SocketValue.setDefault, SocketType.toValue, copyShader, noopShader, gSetUnlinked]

/-- Node-map validation returns its input unchanged, given that
single-node validation does. -/
theorem validateNodesF_pres (fuel : Nat)
    (hR : ∀ nd nd', validateNodeF fuel nd = .ok nd' → nd' = nd) :
    ∀ l l', validateNodesF fuel l = .ok l' → l' = l := by
  intro l
  induction l with
  | nil =>
    intro l' h
    simp only [validateNodesF] at h
    cases h
    rfl
  | cons hd tl ihl =>
    intro l' h
    rcases hd with ⟨k, nd⟩
    simp only [validateNodesF] at h
    cases hnd : validateNodeF fuel nd with
    | ok ndv =>
      rw [hnd] at h
      cases hrest : validateNodesF fuel tl with
      | ok ns =>
        rw [hrest] at h
        cases h
        rw [hR nd ndv hnd, ihl ns hrest]
      | err e => rw [hrest] at h; cases h
      | panic => rw [hrest] at h; cases h
      | nofuel => rw [hrest] at h; cases h
    | err e => rw [hnd] at h; cases h
    | panic => rw [hnd] at h; cases h
    | nofuel => rw [hnd] at h; cases h

/-- Node validation returns its input unchanged, given that graph
validation does at the same fuel. -/
theorem validateNodeF_pres (fuel : Nat)
    (hP : ∀ g g', validateF fuel g = .ok g' → g' = g) :
    ∀ nd nd', validateNodeF fuel nd = .ok nd' → nd' = nd := by
  intro nd nd' h
  cases nd with
  | graph ins outs s =>
    simp only [validateNodeF] at h
    cases h
    rfl
  | imported nm ins inner =>
    simp only [validateNodeF] at h
    cases hin : validateF fuel inner with
    | ok innerV =>
      rw [hin] at h
      cases h
      rw [hP inner innerV hin]
    | err e => rw [hin] at h; cases h
    | panic => rw [hin] at h; cases h
    | nofuel => rw [hin] at h; cases h

/-- Graph validation returns its input unchanged, given that node-map
validation does at the decremented fuel. -/
theorem validateF_pres (fuel : Nat)
    (hQ : ∀ l l', validateNodesF (fuel - 1) l = .ok l' → l' = l) :
    ∀ g g', validateF fuel g = .ok g' → g' = g := by
  intro g g' h
  by_cases hf : fuel = 0
  · subst hf
    simp [validateF] at h
  · rw [validateF, dif_neg hf] at h
    cases hco : checkOutputs g (fuel - 1) g.outputs ⟨[], [], []⟩ with
    | ok st =>
      rw [hco] at h
      cases hns : validateNodesF (fuel - 1) g.nodes with
      | ok ns =>
        rw [hns] at h
        cases h
        rw [hQ g.nodes ns hns]
        cases g
        rfl
      | err e => rw [hns] at h; cases h
      | panic => rw [hns] at h; cases h
      | nofuel => rw [hns] at h; cases h
    | err e => rw [hco] at h; cases h
    | panic => rw [hco] at h; cases h
    | nofuel => rw [hco] at h; cases h

/-- Validation is content-preserving in all three mutual functions. -/
theorem validate_preserves (fuel : Nat) :
    (∀ g g', validateF fuel g = .ok g' → g' = g) ∧
    (∀ l l', validateNodesF fuel l = .ok l' → l' = l) ∧
    (∀ nd nd', validateNodeF fuel nd = .ok nd' → nd' = nd) := by
  induction fuel with
  | zero =>
    have hP : ∀ g g', validateF 0 g = .ok g' → g' = g := by
      intro g g' h
      simp [validateF] at h
    have hR := validateNodeF_pres 0 hP
    have hQ := validateNodesF_pres 0 hR
    exact ⟨hP, hQ, hR⟩
  | succ n ih =>
    have hP := validateF_pres (n + 1) ih.2.1
    have hR := validateNodeF_pres (n + 1) hP
    have hQ := validateNodesF_pres (n + 1) hR
    exact ⟨hP, hQ, hR⟩

/-- C5: whenever validate succeeds, the Validated graph is the very
same value: the inputs map, the outputs map and the nodes map (node
inputs, outputs, links and even shaders, recursively through imported
sub-graphs) are carried over unchanged; only the phase tag, which
carries no data, differs. -/
theorem C5_validate_preserves_content (fuel : Nat) (g g' : Graph)
    (h : validateF fuel g = .ok g') : g' = g :=
  (validate_preserves fuel).1 g g' h

/-- C5 witness: validating the concrete one-node graph succeeds and
returns it unchanged. -/
theorem C5_validate_preserves_content_witness :
    ∃ g', validateF 10 gRun1 = .ok g' ∧ g' = gRun1 := by
  have h : validateF 10 gRun1 = .ok gRun1 := by
    simp [validateF, validateNodesF, validateNodeF, checkOutputs, walk,
      processInputs, lookupA, Graph.inputs, Graph.outputs, Graph.nodes,
      Node.inputsOf, Node.outputsOf, SocketValue.isNoneV, copyShader, gRun1]
  exact ⟨gRun1, h, C5_validate_preserves_content 10 gRun1 gRun1 h⟩

/-- Unlinked entries of the processed output list come out defaulted:
the map-collect of run turns every unlinked entry it is given into the
same entry with its value set to the kind default. -/
theorem runOutsF_unlinked_mem (fuel : Nat) :
    ∀ (g : Graph) (l outs : List (Name × Option SocketRef × SocketValue))
      (g₂ : Graph) (tr : Trace),
      runOutsF fuel g l = (.ok (outs, g₂), tr) →
      ∀ (name : Name) (v : SocketValue), (name, none, v) ∈ l →
        (name, (none : Option SocketRef), v.setDefault) ∈ outs := by
  intro g l
  induction l generalizing g with
  | nil =>
    intro outs g₂ tr h name v hm
    simp at hm
  | cons hd tl ih =>
    intro outs g₂ tr h name v hm
    rcases hd with ⟨n1, r1, v1⟩
    cases r1 with
    | none =>
      simp only [runOutsF] at h
      split at h
      · rename_i outs2 g3 tr2 heq
        cases h
        rcases List.mem_cons.mp hm with hm | hm
        · simp only [Prod.mk.injEq] at hm
          obtain ⟨hn, _, hv1⟩ := hm
          subst hn
          subst hv1
          exact List.mem_cons_self _ _
        · exact List.mem_cons_of_mem _ (ih g outs2 _ _ heq name v hm)
      · rename_i e tr2 heq; cases h
      · rename_i tr2 heq; cases h
      · rename_i tr2 heq; cases h
    | some r =>
      simp only [runOutsF] at h
      split at h
      · rename_i vres g₁ tr₁ heq3
        split at h
        · rename_i outs2 g3 tr2 heq2
          cases h
          rcases List.mem_cons.mp hm with hm | hm
          · simp at hm
          · exact List.mem_cons_of_mem _ (ih g₁ outs2 _ _ heq2 name v hm)
        · rename_i e tr2 heq2; cases h
        · rename_i tr2 heq2; cases h
        · rename_i tr2 heq2; cases h
      · rename_i e tr₁ heq3; cases h
      · rename_i tr₁ heq3; cases h
      · rename_i tr₁ heq3; cases h

/-- C3 amended: after a successful run, every declared graph output
with no SocketRef and an unset value is present in the outputs map with
the canonical default of its declared kind.  (In a Validated graph such
outputs never exist: validate requires unlinked outputs to carry a
value, and run drops value-carrying outputs from the map, as the
counterexample shows.) -/
theorem C3_unset_unlinked_defaulted (fuel : Nat) (g g' : Graph) (tr : Trace)
    (name : Name) (v : SocketValue)
    (hrun : runF fuel g = (.ok g', tr))
    (hmem : (name, (none : Option SocketRef), v) ∈ g.outputs)
    (hunset : v.isNoneV = true) :
    (name, (none : Option SocketRef), v.setDefault) ∈ g'.outputs := by
  by_cases hf : fuel = 0
  · subst hf
    simp only [runF, reduceDIte] at hrun
    cases hrun
  · rw [runF, dif_neg hf] at hrun
    rcases hro : runOutsF (fuel - 1) g (g.outputs.filter (fun x => x.2.2.isNoneV))
      with ⟨res, tr2⟩
    rw [hro] at hrun
    cases res with
    | ok p =>
      rcases p with ⟨outs, g₁⟩
      cases hrun
      have hmf : (name, (none : Option SocketRef), v) ∈
          g.outputs.filter (fun x => x.2.2.isNoneV) :=
        List.mem_filter.mpr ⟨hmem, by simpa using hunset⟩
      have := runOutsF_unlinked_mem (fuel - 1) g _ outs g₁ _ hro name v hmf
      simpa [Graph.withOutputs, Graph.outputs] using this
    | err e => cases hrun
    | panic => cases hrun
    | nofuel => cases hrun

/-- Graph with one unlinked, unset Value output. -/
def gUnsetUnlinked : Graph := .mk [] [("o", (none, .Value none))] []

/-- C3 witness: running the graph with one unlinked unset Value output
keeps the output and sets it to zero, the canonical Value default. -/
theorem C3_unset_unlinked_defaulted_witness :
    runF 5 gUnsetUnlinked
      = (.ok (.mk [] [("o", (none, .Value (some 0)))] []), []) ∧
    (("o" : Name), (none : Option SocketRef),
        SocketValue.setDefault (.Value none)) ∈
      (Graph.mk [] [("o", (none, .Value (some 0)))] []).outputs := by
  have h : runF 5 gUnsetUnlinked
      = (.ok (.mk [] [("o", (none, .Value (some 0)))] []), []) := by
    simp [runF, runOutsF, resolveRefF, runNodeF, runInputsGF, runInputsImpF,
      lookupA, Graph.inputs, Graph.outputs, Graph.nodes, Graph.withOutputs,
      SocketValue.isNoneV, SocketValue.setDefault, gUnsetUnlinked]
  refine ⟨h, ?_⟩
  exact C3_unset_unlinked_defaulted 5 gUnsetUnlinked _ [] "o" (.Value none) h
    (by simp [gUnsetUnlinked, Graph.outputs]) rfl

/-- An output left unlinked and unset somewhere in a graph: either a
declared output of the graph itself, or, recursively, of the inner
graph of some imported node. -/
inductive BadOutput : Graph → Name → Prop where
  | top (g : Graph) (n : Name) (v : SocketValue) :
      (n, (none : Option SocketRef), v) ∈ g.outputs → v.isNoneV = true →
      BadOutput g n
  | nested (g : Graph) (n : Name) (nid : NodeId) (nm : Name)
      (ins : List (Name × Option SocketRef × SocketType)) (inner : Graph) :
      (nid, Node.imported nm ins inner) ∈ g.nodes → BadOutput inner n →
      BadOutput g n

/-- The input scan of the validation walk only ever produces Cycle
errors. -/
theorem processInputs_err_cycle :
    ∀ (l : List (Name × Option SocketRef × SocketType)) (path visited : List NodeId)
      (e : GError), processInputs path visited l = .error e →
      ∃ during s t d, e = .Cycle during s t d := by
  intro l
  induction l with
  | nil =>
    intro path visited e h
    simp [processInputs] at h
  | cons hd tl ih =>
    intro path visited e h
    rcases hd with ⟨inName, ref, ty⟩
    cases ref with
    | none =>
      simp only [processInputs] at h
      exact ih _ _ _ h
    | some sr =>
      cases sr with
      | graph f =>
        simp only [processInputs] at h
        exact ih _ _ _ h
      | node nid sock =>
        simp only [processInputs] at h
        split at h
        · cases h
          exact ⟨path, inName, sock, nid, rfl⟩
        · split at h
          · exact ih _ _ _ h
          · split at h
            · rename_i e2 heq
              cases h
              exact ih _ _ _ heq
            · cases h

/-- The validation walk only ever produces Cycle errors. -/
theorem walk_err_cycle :
    ∀ (fuel : Nat) (g : Graph) (st : WalkSt) (e : GError),
      walk g fuel st = .err e → ∃ during s t d, e = .Cycle during s t d := by
  intro fuel
  induction fuel with
  | zero =>
    intro g st e h
    simp [walk] at h
  | succ n ihn =>
    intro g st e h
    rw [walk, dif_neg (Nat.succ_ne_zero n)] at h
    rcases st with ⟨p, vis, nx⟩
    cases nx with
    | nil => cases h
    | cons cur rest =>
      dsimp only at h
      split at h
      · exact ihn _ _ _ h
      · split at h
        · rename_i e2 heq
          cases h
          exact processInputs_err_cycle _ _ _ _ heq
        · exact ihn _ _ _ h

/-- When the outputs loop reports the unlinked-and-unset error, the
named output is an unlinked, unset entry of the processed list. -/
theorem checkOutputs_err_unlinked :
    ∀ (l : List (Name × Option SocketRef × SocketValue)) (g : Graph)
      (fuel : Nat) (st : WalkSt) (n : Name),
      checkOutputs g fuel l st = .err (.UnlinkeUnsetdGraphOutput n) →
      ∃ v, (n, (none : Option SocketRef), v) ∈ l ∧ v.isNoneV = true := by
  intro l
  induction l with
  | nil =>
    intro g fuel st n h
    simp [checkOutputs] at h
  | cons hd tl ih =>
    intro g fuel st n h
    rcases hd with ⟨outName, ref, value⟩
    cases ref with
    | none =>
      simp only [checkOutputs] at h
      split at h
      · rename_i hset
        cases h
        exact ⟨value, List.mem_cons_self _ _, hset⟩
      · obtain ⟨v, hm, hv⟩ := ih g fuel st n h
        exact ⟨v, List.mem_cons_of_mem _ hm, hv⟩
    | some sr =>
      cases sr with
      | graph f =>
        simp only [checkOutputs] at h
        obtain ⟨v, hm, hv⟩ := ih g fuel st n h
        exact ⟨v, List.mem_cons_of_mem _ hm, hv⟩
      | node nid sock =>
        simp only [checkOutputs] at h
        split at h
        · obtain ⟨v, hm, hv⟩ := ih g fuel st n h
          exact ⟨v, List.mem_cons_of_mem _ hm, hv⟩
        · split at h
          · obtain ⟨v, hm, hv⟩ := ih g fuel _ n h
            exact ⟨v, List.mem_cons_of_mem _ hm, hv⟩
          · rename_i e2 heq
            cases h
            obtain ⟨during, s, t, d, he⟩ := walk_err_cycle _ _ _ _ heq
            cases he
          · cases h
          · cases h

/-- Node-map validation reports the unlinked-and-unset error only for
an imported entry whose inner graph has a bad output. -/
theorem validateNodesF_unlinked (fuel : Nat)
    (hR : ∀ nd n, validateNodeF fuel nd = .err (.UnlinkeUnsetdGraphOutput n) →
      ∃ nm ins inner, nd = Node.imported nm ins inner ∧ BadOutput inner n) :
    ∀ l n, validateNodesF fuel l = .err (.UnlinkeUnsetdGraphOutput n) →
      ∃ nid nm ins inner,
        (nid, Node.imported nm ins inner) ∈ l ∧ BadOutput inner n := by
  intro l
  induction l with
  | nil =>
    intro n h
    simp [validateNodesF] at h
  | cons hd tl ih =>
    intro n h
    rcases hd with ⟨k, nd⟩
    simp only [validateNodesF] at h
    cases hnd : validateNodeF fuel nd with
    | ok ndv =>
      rw [hnd] at h
      cases hrest : validateNodesF fuel tl with
      | ok ns => rw [hrest] at h; cases h
      | err e =>
        rw [hrest] at h
        cases h
        obtain ⟨nid, nm, ins, inner, hm, hb⟩ := ih n hrest
        exact ⟨nid, nm, ins, inner, List.mem_cons_of_mem _ hm, hb⟩
      | panic => rw [hrest] at h; cases h
      | nofuel => rw [hrest] at h; cases h
    | err e =>
      rw [hnd] at h
      cases h
      obtain ⟨nm, ins, inner, hnd2, hb⟩ := hR nd n hnd
      exact ⟨k, nm, ins, inner, hnd2 ▸ List.mem_cons_self _ _, hb⟩
    | panic => rw [hnd] at h; cases h
    | nofuel => rw [hnd] at h; cases h

/-- Node validation reports the unlinked-and-unset error only for an
imported node whose inner graph has a bad output. -/
theorem validateNodeF_unlinked (fuel : Nat)
    (hP : ∀ g n, validateF fuel g = .err (.UnlinkeUnsetdGraphOutput n) →
      BadOutput g n) :
    ∀ nd n, validateNodeF fuel nd = .err (.UnlinkeUnsetdGraphOutput n) →
      ∃ nm ins inner, nd = Node.imported nm ins inner ∧ BadOutput inner n := by
  intro nd n h
  cases nd with
  | graph ins outs s =>
    simp only [validateNodeF] at h
    cases h
  | imported nm ins inner =>
    simp only [validateNodeF] at h
    cases hin : validateF fuel inner with
    | ok innerV => rw [hin] at h; cases h
    | err e =>
      rw [hin] at h
      cases h
      exact ⟨nm, ins, inner, rfl, hP inner n hin⟩
    | panic => rw [hin] at h; cases h
    | nofuel => rw [hin] at h; cases h

/-- Graph validation reports the unlinked-and-unset error only when
the graph, or an imported sub-graph, has a bad output. -/
theorem validateF_unlinked (fuel : Nat)
    (hQ : ∀ l n, validateNodesF (fuel - 1) l = .err (.UnlinkeUnsetdGraphOutput n) →
      ∃ nid nm ins inner,
        (nid, Node.imported nm ins inner) ∈ l ∧ BadOutput inner n) :
    ∀ g n, validateF fuel g = .err (.UnlinkeUnsetdGraphOutput n) →
      BadOutput g n := by
  intro g n h
  by_cases hf : fuel = 0
  · subst hf
    simp [validateF] at h
  · rw [validateF, dif_neg hf] at h
    cases hco : checkOutputs g (fuel - 1) g.outputs ⟨[], [], []⟩ with
    | ok st =>
      rw [hco] at h
      cases hns : validateNodesF (fuel - 1) g.nodes with
      | ok ns => rw [hns] at h; cases h
      | err e =>
        rw [hns] at h
        cases h
        obtain ⟨nid, nm, ins, inner, hm, hb⟩ := hQ g.nodes n hns
        exact BadOutput.nested g n nid nm ins inner hm hb
      | panic => rw [hns] at h; cases h
      | nofuel => rw [hns] at h; cases h
    | err e =>
      rw [hco] at h
      cases h
      obtain ⟨v, hm, hv⟩ := checkOutputs_err_unlinked _ _ _ _ _ hco
      exact BadOutput.top g n v hm hv
    | panic => rw [hco] at h; cases h
    | nofuel => rw [hco] at h; cases h

/-- Unlinked-and-unset characterization, all fuels. -/
theorem validate_unlinked_all (fuel : Nat) :
    (∀ g n, validateF fuel g = .err (.UnlinkeUnsetdGraphOutput n) →
      BadOutput g n) ∧
    (∀ l n, validateNodesF fuel l = .err (.UnlinkeUnsetdGraphOutput n) →
      ∃ nid nm ins inner,
        (nid, Node.imported nm ins inner) ∈ l ∧ BadOutput inner n) ∧
    (∀ nd n, validateNodeF fuel nd = .err (.UnlinkeUnsetdGraphOutput n) →
      ∃ nm ins inner, nd = Node.imported nm ins inner ∧ BadOutput inner n) := by
  induction fuel with
  | zero =>
    have hP : ∀ g n, validateF 0 g = .err (.UnlinkeUnsetdGraphOutput n) →
        BadOutput g n := by
      intro g n h
      simp [validateF] at h
    have hR := validateNodeF_unlinked 0 hP
    have hQ := validateNodesF_unlinked 0 hR
    exact ⟨hP, hQ, hR⟩
  | succ n ih =>
    have hP := validateF_unlinked (n + 1) ih.2.1
    have hR := validateNodeF_unlinked (n + 1) hP
    have hQ := validateNodesF_unlinked (n + 1) hR
    exact ⟨hP, hQ, hR⟩

/-- Node maps holding only raw GraphNodes validate to themselves. -/
theorem validateNodesF_graphOnly (fuel : Nat) :
    ∀ l, (∀ p ∈ l, ∃ ins outs s, Prod.snd p = Node.graph ins outs s) →
      validateNodesF fuel l = .ok l := by
  intro l
  induction l with
  | nil => intro _; simp [validateNodesF]
  | cons hd tl ih =>
    intro hall
    rcases hd with ⟨k, nd⟩
    obtain ⟨ins, outs, s, hnd⟩ := hall (k, nd) (List.mem_cons_self _ _)
    dsimp only at hnd
    subst hnd
    simp only [validateNodesF, validateNodeF]
    rw [ih (fun p hp => hall p (List.mem_cons_of_mem _ hp))]

/-- C6 amended: validate returns the unlinked-and-unset error only if
the graph itself, or the inner graph of some transitively imported
node, has a declared output with no SocketRef and an unset value; a
graph in which every such output carries a value (so in particular one
whose unlinked outputs are all set) never produces this error; and a
graph with zero declared outputs whose nodes are all raw GraphNodes
validates successfully.  (As the counterexample shows, the error is
not guaranteed when a bad output exists, because a cycle found on an
earlier-iterated output preempts it, and a graph with zero outputs can
still fail on an imported sub-graph.) -/
theorem C6_unlinked_unset_characterization :
    (∀ fuel g n, validateF fuel g = .err (.UnlinkeUnsetdGraphOutput n) →
      BadOutput g n) ∧
    (∀ fuel g, (∀ n, ¬ BadOutput g n) →
      ∀ n, validateF fuel g ≠ .err (.UnlinkeUnsetdGraphOutput n)) ∧
    (∀ fuel g, fuel ≠ 0 → g.outputs = [] →
      (∀ p ∈ g.nodes, ∃ ins outs s, Prod.snd p = Node.graph ins outs s) →
      validateF fuel g = .ok g) := by
  refine ⟨?_, ?_, ?_⟩
  · intro fuel g n h
    exact (validate_unlinked_all fuel).1 g n h
  · intro fuel g hg n h
    exact hg n ((validate_unlinked_all fuel).1 g n h)
  · intro fuel g hf ho hall
    cases g with
    | mk gin gout gnodes =>
      simp only [Graph.outputs] at ho
      subst ho
      rw [validateF, dif_neg hf]
      simp only [Graph.outputs, Graph.nodes, Graph.inputs, checkOutputs]
      rw [validateNodesF_graphOnly (fuel - 1) gnodes
        (by simpa [Graph.nodes] using hall)]

/-- C6 witness: a graph with zero outputs and one raw node validates
successfully, and the unlinked-but-set graph never yields the
unlinked-and-unset error. -/
theorem C6_unlinked_unset_characterization_witness :
    validateF 3 (Graph.mk [] [] [("n", .graph [] [] noopShader)])
      = .ok (Graph.mk [] [] [("n", .graph [] [] noopShader)]) ∧
    validateF 3 gSetUnlinked ≠ .err (.UnlinkeUnsetdGraphOutput "o") := by
  constructor
  · exact C6_unlinked_unset_characterization.2.2 3 _ (by decide) rfl
      (by
        intro p hp
        simp only [Graph.nodes, List.mem_singleton] at hp
        subst hp
        exact ⟨[], [], noopShader, rfl⟩)
  · refine C6_unlinked_unset_characterization.2.1 3 gSetUnlinked ?_ "o"
    intro n hb
    cases hb with
    | top g n v hm hv =>
      simp only [gSetUnlinked, Graph.outputs, List.mem_singleton,
        Prod.mk.injEq] at hm
      obtain ⟨hn, hr, hv2⟩ := hm
      subst hv2
      simp [SocketValue.isNoneV] at hv
    | nested g n nid nm ins inner hm hb =>
      simp [gSetUnlinked, Graph.nodes] at hm

/-- Association lookup misses exactly the keys absent from the list. -/
theorem lookupA_eq_none {l : List (String × α)} {key : String} :
    lookupA l key = none ↔ key ∉ l.map Prod.fst := by
  induction l with
  | nil => simp [lookupA]
  | cons hd tl ih =>
    rcases hd with ⟨k, v⟩
    simp only [List.map_cons, List.mem_cons]
    by_cases hk : k = key
    · subst hk
      simp [lookupA]
    · rw [lookupA, if_neg hk, ih]
      constructor
      · intro h
        rintro (he | hm)
        · exact hk he.symm
        · exact h hm
      · intro h hm
        exact h (Or.inr hm)

/-- Inserting a fresh key appends the binding. -/
theorem insertA_fresh {l : List (String × α)} {key : String} (v : α)
    (h : key ∉ l.map Prod.fst) : insertA l key v = l ++ [(key, v)] := by
  have hc : containsA l key = false := by
    simp [containsA, lookupA_eq_none.mpr h]
  simp [insertA, hc]

/-- Folding HashMap insertion over a list with fresh, duplicate-free
keys appends the list unchanged. -/
theorem foldl_insertA_fresh :
    ∀ (l acc : List (Name × SocketType)),
      (l.map Prod.fst).Nodup →
      (∀ k, k ∈ l.map Prod.fst → k ∉ acc.map Prod.fst) →
      List.foldl (fun acc x => insertA acc x.1 x.2) acc l = acc ++ l := by
  intro l
  induction l with
  | nil => intro acc _ _; simp
  | cons hd tl ih =>
    intro acc hnd hfresh
    rcases hd with ⟨k, v⟩
    simp only [List.map_cons, List.nodup_cons] at hnd
    have hk : k ∉ acc.map Prod.fst := hfresh k (by simp)
    simp only [List.foldl_cons]
    rw [insertA_fresh v hk]
    rw [ih (acc ++ [(k, v)]) hnd.2 ?_]
    · simp
    · intro k2 hk2
      simp only [List.map_append, List.mem_append, List.map_cons,
        List.mem_singleton, not_or]
      refine ⟨?_, ?_⟩
      · intro hin
        exact hfresh k2
          (by simp only [List.map_cons, List.mem_cons]; exact Or.inr hk2) hin
      · intro hin
        simp at hin
        subst hin
        exact hnd.1 hk2

/-- Collecting into a HashMap is the identity on duplicate-free
keyed lists. -/
theorem collectHM_nodup (l : List (Name × SocketType))
    (h : (l.map Prod.fst).Nodup) : collectHM l = l := by
  have := foldl_insertA_fresh l [] h (by simp)
  simpa [collectHM] using this

/-- Permutation-invariance of list toFinset. -/
theorem toFinset_of_perm {l₁ l₂ : List (Name × SocketType)}
    (h : l₁.Perm l₂) : l₁.toFinset = l₂.toFinset := by
  ext a
  simp [List.mem_toFinset, h.mem_iff]

/-- C9: signature() depends only on the declared name-and-type pairs:
(i) two nodes with equal input and output name-and-kind pair lists have
equal signatures, whatever their SocketRefs, cached payloads or shading
functions; (ii) with duplicate-free names, permuting the declarations
(a different map iteration order) leaves the signature unchanged;
(iii) with duplicate-free names, two signatures are equal exactly when
the input pairs and the output pairs agree as finite sets; and (iv)
replacing one declared entry by an entry with a fresh name or a changed
kind breaks signature equality. -/
theorem C9_signature_structural :
    (∀ n₁ n₂ : Node, inputPairs n₁ = inputPairs n₂ →
      outputPairs n₁ = outputPairs n₂ →
      Node.signature n₁ = Node.signature n₂) ∧
    (∀ n₁ n₂ : Node,
      (inputPairs n₁).Perm (inputPairs n₂) →
      (outputPairs n₁).Perm (outputPairs n₂) →
      ((inputPairs n₁).map Prod.fst).Nodup →
      ((outputPairs n₁).map Prod.fst).Nodup →
      Node.signature n₁ = Node.signature n₂) ∧
    (∀ n₁ n₂ : Node,
      ((inputPairs n₁).map Prod.fst).Nodup →
      ((outputPairs n₁).map Prod.fst).Nodup →
      ((inputPairs n₂).map Prod.fst).Nodup →
      ((outputPairs n₂).map Prod.fst).Nodup →
      (Node.signature n₁ = Node.signature n₂ ↔
        (inputPairs n₁).toFinset = (inputPairs n₂).toFinset ∧
        (outputPairs n₁).toFinset = (outputPairs n₂).toFinset)) ∧
    (∀ (n₁ n₂ : Node) (pre post : List (Name × SocketType))
      (nm nm' : Name) (k k' : SocketType),
      ((inputPairs n₁).map Prod.fst).Nodup →
      ((outputPairs n₁).map Prod.fst).Nodup →
      ((outputPairs n₂).map Prod.fst).Nodup →
      inputPairs n₁ = pre ++ (nm, k) :: post →
      inputPairs n₂ = pre ++ (nm', k') :: post →
      (nm', k') ≠ (nm, k) →
      nm' ∉ (pre ++ post).map Prod.fst →
      Node.signature n₁ ≠ Node.signature n₂) := by
  have hiff : ∀ n₁ n₂ : Node,
      ((inputPairs n₁).map Prod.fst).Nodup →
      ((outputPairs n₁).map Prod.fst).Nodup →
      ((inputPairs n₂).map Prod.fst).Nodup →
      ((outputPairs n₂).map Prod.fst).Nodup →
      (Node.signature n₁ = Node.signature n₂ ↔
        (inputPairs n₁).toFinset = (inputPairs n₂).toFinset ∧
        (outputPairs n₁).toFinset = (outputPairs n₂).toFinset) := by
    intro n₁ n₂ hi1 ho1 hi2 ho2
    rw [Node.signature, Node.signature, collectHM_nodup _ hi1,
      collectHM_nodup _ ho1, collectHM_nodup _ hi2, collectHM_nodup _ ho2]
    simp [Signature.mk.injEq]
  refine ⟨?_, ?_, hiff, ?_⟩
  · intro n₁ n₂ hin hout
    rw [Node.signature, Node.signature, hin, hout]
  · intro n₁ n₂ hpi hpo hi1 ho1
    have hi2 : ((inputPairs n₂).map Prod.fst).Nodup :=
      ((hpi.map Prod.fst).nodup_iff).mp hi1
    have ho2 : ((outputPairs n₂).map Prod.fst).Nodup :=
      ((hpo.map Prod.fst).nodup_iff).mp ho1
    exact (hiff n₁ n₂ hi1 ho1 hi2 ho2).mpr
      ⟨toFinset_of_perm hpi, toFinset_of_perm hpo⟩
  · intro n₁ n₂ pre post nm nm' k k' hi1 ho1 ho2 hdecl1 hdecl2 hne hfresh heq
    have hi2 : ((inputPairs n₂).map Prod.fst).Nodup := by
      rw [hdecl2]
      rw [hdecl1] at hi1
      simp only [List.map_append, List.map_cons] at hi1 ⊢
      rw [List.nodup_append] at hi1 ⊢
      rcases hi1 with ⟨h1, h2, h3⟩
      rw [List.nodup_cons] at h2 ⊢
      simp only [List.map_append, List.mem_append, not_or] at hfresh
      refine ⟨h1, ⟨hfresh.2, h2.2⟩, ?_⟩
      intro a ha
      have hdis := h3 ha
      simp only [List.mem_cons] at hdis ⊢
      rintro (rfl | hmem)
      · exact hfresh.1 ha
      · exact hdis (Or.inr hmem)
    have hmem2 : (nm', k') ∈ (inputPairs n₂).toFinset := by
      rw [hdecl2]
      simp
    have hmem1 : (nm', k') ∉ (inputPairs n₁).toFinset := by
      rw [hdecl1]
      simp only [List.toFinset_append, Finset.mem_union, List.mem_toFinset,
        List.mem_cons, not_or]
      simp only [List.map_append, List.mem_append, not_or] at hfresh
      refine ⟨?_, hne, ?_⟩
      · intro hmem
        exact hfresh.1 (List.mem_map_of_mem Prod.fst hmem)
      · intro hmem
        exact hfresh.2 (List.mem_map_of_mem Prod.fst hmem)
    have := (hiff n₁ n₂ hi1 ho1 hi2 ho2).mp heq
    rw [this.1] at hmem1
    exact hmem1 hmem2

/-- C9 witness: two one-input one-output nodes that differ in their
SocketRef wiring, cached output payload and shading function have equal
signatures; and the iff of part three holds concretely for a node
written with its two inputs in either order. -/
theorem C9_signature_structural_witness :
    Node.signature (.graph [("a", (some (.graph "x"), .Value))]
        [("o", .Value none)] noopShader)
      = Node.signature (.graph [("a", (none, .Value))]
        [("o", .Value (some 3))] copyShader) ∧
    Node.signature (.graph [("a", (none, .Value)), ("b", (none, .Color))]
        [] noopShader)
      = Node.signature (.graph [("b", (none, .Color)), ("a", (none, .Value))]
        [] noopShader) := by
  constructor
  · exact C9_signature_structural.1 _ _ rfl rfl
  · exact C9_signature_structural.2.1 _ _
      (by simp [inputPairs, Node.inputsOf]; exact List.Perm.swap _ _ _)
      (by simp [outputPairs, Node.outputsOf])
      (by simp [inputPairs, Node.inputsOf])
      (by simp [outputPairs, Node.outputsOf])

/-- A Cycle error built by the input scan detects a node of the path
it reports. -/
theorem processInputs_cycle_mem :
    ∀ (l : List (Name × Option SocketRef × SocketType))
      (path visited : List NodeId) (dur : List NodeId) (s t : Name)
      (d : NodeId),
      processInputs path visited l = .error (.Cycle dur s t d) →
      d ∈ dur := by
  intro l
  induction l with
  | nil =>
    intro path visited dur s t d h
    simp [processInputs] at h
  | cons hd tl ih =>
    intro path visited dur s t d h
    rcases hd with ⟨inName, ref, ty⟩
    cases ref with
    | none =>
      simp only [processInputs] at h
      exact ih _ _ _ _ _ _ h
    | some sr =>
      cases sr with
      | graph f =>
        simp only [processInputs] at h
        exact ih _ _ _ _ _ _ h
      | node nid sock =>
        simp only [processInputs] at h
        split at h
        · rename_i hmem
          cases h
          exact hmem
        · split at h
          · exact ih _ _ _ _ _ _ h
          · split at h
            · rename_i e2 heq
              cases h
              exact ih _ _ _ _ _ _ heq
            · cases h

/-- A Cycle error of the validation walk detects a node of the path it
reports. -/
theorem walk_cycle_mem :
    ∀ (fuel : Nat) (g : Graph) (st : WalkSt) (dur : List NodeId)
      (s t : Name) (d : NodeId),
      walk g fuel st = .err (.Cycle dur s t d) → d ∈ dur := by
  intro fuel
  induction fuel with
  | zero =>
    intro g st dur s t d h
    simp [walk] at h
  | succ n ihn =>
    intro g st dur s t d h
    rw [walk, dif_neg (Nat.succ_ne_zero n)] at h
    rcases st with ⟨p, vis, nx⟩
    cases nx with
    | nil => cases h
    | cons cur rest =>
      dsimp only at h
      split at h
      · exact ihn _ _ _ _ _ _ h
      · split at h
        · rename_i e2 heq
          cases h
          exact processInputs_cycle_mem _ _ _ _ _ _ _ heq
        · exact ihn _ _ _ _ _ _ h

/-- A Cycle error of the outputs loop detects a node of the path it
reports. -/
theorem checkOutputs_cycle_mem :
    ∀ (l : List (Name × Option SocketRef × SocketValue)) (g : Graph)
      (fuel : Nat) (st : WalkSt) (dur : List NodeId) (s t : Name)
      (d : NodeId),
      checkOutputs g fuel l st = .err (.Cycle dur s t d) → d ∈ dur := by
  intro l
  induction l with
  | nil =>
    intro g fuel st dur s t d h
    simp [checkOutputs] at h
  | cons hd tl ih =>
    intro g fuel st dur s t d h
    rcases hd with ⟨outName, ref, value⟩
    cases ref with
    | none =>
      simp only [checkOutputs] at h
      split at h
      · cases h
      · exact ih _ _ _ _ _ _ _ h
    | some sr =>
      cases sr with
      | graph f =>
        simp only [checkOutputs] at h
        exact ih _ _ _ _ _ _ _ h
      | node nid sock =>
        simp only [checkOutputs] at h
        split at h
        · exact ih _ _ _ _ _ _ _ h
        · split at h
          · exact ih _ _ _ _ _ _ _ h
          · rename_i e2 heq
            cases h
            exact walk_cycle_mem _ _ _ _ _ _ _ heq
          · cases h
          · cases h

/-- A Cycle error of graph validation, including one raised while
validating an imported sub-graph, detects a node of the path it
reports. -/
theorem validate_cycle_mem_all (fuel : Nat) :
    (∀ g dur s t d, validateF fuel g = .err (.Cycle dur s t d) → d ∈ dur) ∧
    (∀ l dur s t d, validateNodesF fuel l = .err (.Cycle dur s t d) →
      d ∈ dur) ∧
    (∀ nd dur s t d, validateNodeF fuel nd = .err (.Cycle dur s t d) →
      d ∈ dur) := by
  induction fuel with
  | zero =>
    have hP : ∀ g dur s t d, validateF 0 g = .err (.Cycle dur s t d) →
        d ∈ dur := by
      intro g dur s t d h
      simp [validateF] at h
    refine ⟨hP, ?_, ?_⟩
    all_goals
      intro x dur s t d h
    · -- validateNodesF 0
      induction x with
      | nil => simp [validateNodesF] at h
      | cons hd tl ihl =>
        rcases hd with ⟨k, nd⟩
        simp only [validateNodesF] at h
        revert h
        cases hnd : validateNodeF 0 nd with
        | ok ndv =>
          cases hrest : validateNodesF 0 tl with
          | ok ns => intro h; cases h
          | err e =>
            intro h
            cases h
            exact ihl hrest
          | panic => intro h; cases h
          | nofuel => intro h; cases h
        | err e =>
          cases nd with
          | graph ins outs s2 =>
            simp only [validateNodeF] at hnd
            cases hnd
          | imported nm ins inner =>
            simp only [validateNodeF] at hnd
            revert hnd
            cases hin : validateF 0 inner with
            | ok iv => intro hnd; cases hnd
            | err e2 =>
              intro hnd
              cases hnd
              simp [validateF] at hin
            | panic => intro hnd; cases hnd
            | nofuel => intro hnd; cases hnd
        | panic => intro h; cases h
        | nofuel => intro h; cases h
    · -- validateNodeF 0
      cases x with
      | graph ins outs s2 =>
        simp only [validateNodeF] at h
        cases h
      | imported nm ins inner =>
        simp only [validateNodeF] at h
        revert h
        cases hin : validateF 0 inner with
        | ok iv => intro h; cases h
        | err e2 =>
          intro h
          cases h
          simp [validateF] at hin
        | panic => intro h; cases h
        | nofuel => intro h; cases h
  | succ n ih =>
    have hP : ∀ g dur s t d, validateF (n + 1) g = .err (.Cycle dur s t d) →
        d ∈ dur := by
      intro g dur s t d h
      rw [validateF, dif_neg (Nat.succ_ne_zero n)] at h
      simp only [Nat.add_sub_cancel] at h
      revert h
      cases hco : checkOutputs g n g.outputs ⟨[], [], []⟩ with
      | ok st =>
        cases hns : validateNodesF n g.nodes with
        | ok ns => intro h; cases h
        | err e =>
          intro h
          cases h
          exact ih.2.1 g.nodes dur s t d hns
        | panic => intro h; cases h
        | nofuel => intro h; cases h
      | err e =>
        intro h
        cases h
        exact checkOutputs_cycle_mem _ _ _ _ _ _ _ _ hco
      | panic => intro h; cases h
      | nofuel => intro h; cases h
    have hR : ∀ nd dur s t d,
        validateNodeF (n + 1) nd = .err (.Cycle dur s t d) → d ∈ dur := by
      intro nd dur s t d h
      cases nd with
      | graph ins outs s2 =>
        simp only [validateNodeF] at h
        cases h
      | imported nm ins inner =>
        simp only [validateNodeF] at h
        revert h
        cases hin : validateF (n + 1) inner with
        | ok iv => intro h; cases h
        | err e2 =>
          intro h
          cases h
          exact hP inner dur s t d hin
        | panic => intro h; cases h
        | nofuel => intro h; cases h
    have hQ : ∀ l dur s t d,
        validateNodesF (n + 1) l = .err (.Cycle dur s t d) → d ∈ dur := by
      intro l
      induction l with
      | nil =>
        intro dur s t d h
        simp [validateNodesF] at h
      | cons hd tl ihl =>
        intro dur s t d h
        rcases hd with ⟨k, nd⟩
        simp only [validateNodesF] at h
        revert h
        cases hnd : validateNodeF (n + 1) nd with
        | ok ndv =>
          cases hrest : validateNodesF (n + 1) tl with
          | ok ns => intro h; cases h
          | err e =>
            intro h
            cases h
            exact ihl dur s t d hrest
          | panic => intro h; cases h
          | nofuel => intro h; cases h
        | err e =>
          intro h
          cases h
          exact hR nd dur s t d hnd
        | panic => intro h; cases h
        | nofuel => intro h; cases h
    exact ⟨hP, hQ, hR⟩

/-- Index of the first occurrence of a node id in a list (used to
order the visited list of the validation walk by first processing). -/
def fidx : List NodeId → NodeId → Nat
  | [], _ => 0
  | x :: xs, a => if x = a then 0 else fidx xs a + 1

/-- First-occurrence indices are stable under appending. -/
theorem fidx_append_of_mem {l : List NodeId} {a : NodeId} (h : a ∈ l)
    (l₂ : List NodeId) : fidx (l ++ l₂) a = fidx l a := by
  induction l with
  | nil => simp at h
  | cons x xs ih =>
    by_cases hx : x = a
    · simp [fidx, hx]
    · rcases List.mem_cons.mp h with h | h
      · exact absurd h.symm hx
      · simp [fidx, hx, ih h]

/-- A fresh element appended at the end first occurs at the old
length. -/
theorem fidx_append_self {l : List NodeId} {a : NodeId} (h : a ∉ l) :
    fidx (l ++ [a]) a = l.length := by
  induction l with
  | nil => simp [fidx]
  | cons x xs ih =>
    have hx : x ≠ a := fun he => h (he ▸ List.mem_cons_self x xs)
    have hmem : a ∉ xs := fun hm => h (List.mem_cons_of_mem _ hm)
    simp [fidx, hx, ih hmem]

/-- First occurrences of members sit below the length. -/
theorem fidx_lt_length {l : List NodeId} {a : NodeId} (h : a ∈ l) :
    fidx l a < l.length := by
  induction l with
  | nil => simp at h
  | cons x xs ih =>
    by_cases hx : x = a
    · simp [fidx, hx]
    · rcases List.mem_cons.mp h with h | h
      · exact absurd h.symm hx
      · simp only [fidx, hx, if_false, List.length_cons]
        have := ih h
        omega

/-- Members with equal first-occurrence index are equal. -/
theorem fidx_inj {l : List NodeId} {a b : NodeId} (ha : a ∈ l) (hb : b ∈ l)
    (h : fidx l a = fidx l b) : a = b := by
  induction l with
  | nil => simp at ha
  | cons x xs ih =>
    by_cases hxa : x = a <;> by_cases hxb : x = b
    · rw [← hxa, ← hxb]
    · rw [fidx, fidx, if_pos hxa, if_neg hxb] at h
      omega
    · rw [fidx, fidx, if_neg hxa, if_pos hxb] at h
      omega
    · rw [fidx, fidx, if_neg hxa, if_neg hxb] at h
      have ha2 : a ∈ xs := by
        rcases List.mem_cons.mp ha with h2 | h2
        · exact absurd h2.symm hxa
        · exact h2
      have hb2 : b ∈ xs := by
        rcases List.mem_cons.mp hb with h2 | h2
        · exact absurd h2.symm hxb
        · exact h2
      exact ih ha2 hb2 (by omega)

/-- Nonempty lists admit a member of maximal measure. -/
theorem exists_max_measure (f : NodeId → Nat) :
    ∀ (M : List NodeId), M ≠ [] → ∃ m ∈ M, ∀ x ∈ M, f x ≤ f m := by
  intro M
  induction M with
  | nil => intro h; exact absurd rfl h
  | cons x xs ih =>
    intro _
    cases xs with
    | nil => exact ⟨x, List.mem_cons_self _ _, by simp⟩
    | cons y ys =>
      obtain ⟨m, hm, hmax⟩ := ih (by simp)
      by_cases hc : f x ≤ f m
      · refine ⟨m, List.mem_cons_of_mem _ hm, ?_⟩
        intro z hz
        rcases List.mem_cons.mp hz with hz | hz
        · subst hz; exact hc
        · exact hmax z hz
      · refine ⟨x, List.mem_cons_self _ _, ?_⟩
        intro z hz
        rcases List.mem_cons.mp hz with hz | hz
        · subst hz; exact le_refl _
        · exact le_trans (hmax z hz) (by omega)

/-- Nonempty lists admit a member of minimal measure. -/
theorem exists_min_measure (f : NodeId → Nat) :
    ∀ (M : List NodeId), M ≠ [] → ∃ m ∈ M, ∀ x ∈ M, f m ≤ f x := by
  intro M
  induction M with
  | nil => intro h; exact absurd rfl h
  | cons x xs ih =>
    intro _
    cases xs with
    | nil => exact ⟨x, List.mem_cons_self _ _, by simp⟩
    | cons y ys =>
      obtain ⟨m, hm, hmin⟩ := ih (by simp)
      by_cases hc : f m ≤ f x
      · refine ⟨m, List.mem_cons_of_mem _ hm, ?_⟩
        intro z hz
        rcases List.mem_cons.mp hz with hz | hz
        · subst hz; exact hc
        · exact hmin z hz
      · refine ⟨x, List.mem_cons_self _ _, ?_⟩
        intro z hz
        rcases List.mem_cons.mp hz with hz | hz
        · subst hz; exact le_refl _
        · exact le_trans (by omega) (hmin z hz)

/-- Structure of a successful input scan: every node-link target of
the scanned inputs avoids the path and is either already visited or
pushed, and something was pushed only if the flag says so. -/
theorem processInputs_ok_covers :
    ∀ (l : List (Name × Option SocketRef × SocketType))
      (path visited pushed : List NodeId) (flag : Bool),
      processInputs path visited l = .ok (pushed, flag) →
      (∀ x ∈ l, ∀ b sock, x.2.1 = some (SocketRef.node b sock) →
        b ∉ path ∧ (b ∈ visited ∨ b ∈ pushed)) ∧
      (flag = false → pushed = []) := by
  intro l
  induction l with
  | nil =>
    intro path visited pushed flag h
    simp only [processInputs] at h
    cases h
    exact ⟨by simp, fun _ => rfl⟩
  | cons hd tl ih =>
    intro path visited pushed flag h
    rcases hd with ⟨inName, ref, ty⟩
    cases ref with
    | none =>
      simp only [processInputs] at h
      obtain ⟨h1, h2⟩ := ih _ _ _ _ h
      refine ⟨?_, h2⟩
      intro x hx b sock hs
      rcases List.mem_cons.mp hx with hx | hx
      · subst hx; cases hs
      · exact h1 x hx b sock hs
    | some sr =>
      cases sr with
      | graph f =>
        simp only [processInputs] at h
        obtain ⟨h1, h2⟩ := ih _ _ _ _ h
        refine ⟨?_, h2⟩
        intro x hx b sock hs
        rcases List.mem_cons.mp hx with hx | hx
        · subst hx; cases hs
        · exact h1 x hx b sock hs
      | node nid sock0 =>
        simp only [processInputs] at h
        split at h
        · cases h
        · rename_i hpath
          split at h
          · rename_i hvis
            obtain ⟨h1, h2⟩ := ih _ _ _ _ h
            refine ⟨?_, h2⟩
            intro x hx b sock hs
            rcases List.mem_cons.mp hx with hx | hx
            · subst hx
              cases hs
              exact ⟨hpath, Or.inl hvis⟩
            · exact h1 x hx b sock hs
          · rename_i hvis
            cases hrec : processInputs path visited tl with
            | error e =>
              rw [hrec] at h
              cases h
            | ok p =>
              rcases p with ⟨pushed2, flag2⟩
              rw [hrec] at h
              dsimp only at h
              cases h
              obtain ⟨h1, _⟩ := ih _ _ _ _ hrec
              refine ⟨?_, by simp⟩
              intro x hx b sock hs
              rcases List.mem_cons.mp hx with hx | hx
              · subst hx
                cases hs
                exact ⟨hpath, Or.inr (List.mem_cons_self _ _)⟩
              · obtain ⟨hp, hm⟩ := h1 x hx b sock hs
                refine ⟨hp, ?_⟩
                rcases hm with hm | hm
                · exact Or.inl hm
                · exact Or.inr (List.mem_cons_of_mem _ hm)

/-- Invariant of the validation walk relating the visited list, the
path stack and a ghost set pstar of nodes whose processing pushed new
work while they were first visited.  Every link out of a visited node
either goes down in first-visit order and misses pstar, or its source
is in pstar; and links that go down in first-visit order always miss
pstar. -/
structure WInv (g : Graph) (vis path pstar : List NodeId) : Prop where
  pstar_path : ∀ x ∈ pstar, x ∈ path
  path_vis : ∀ x ∈ path, x ∈ vis
  noself : ∀ a ∈ vis, ¬ LinkStep g a a
  edgeA : ∀ a ∈ vis, ∀ b, LinkStep g a b → containsA g.nodes b = true →
    (b ∈ vis ∧ fidx vis b < fidx vis a ∧ b ∉ pstar) ∨ a ∈ pstar
  edgeB : ∀ a ∈ vis, ∀ b, LinkStep g a b → containsA g.nodes b = true →
    b ∈ vis → fidx vis b < fidx vis a → b ∉ pstar

/-- Every link out of a visited node whose target is a real node leads
back into the visited list or into the pending work list. -/
def Closed (g : Graph) (vis next : List NodeId) : Prop :=
  ∀ a ∈ vis, ∀ b, LinkStep g a b → containsA g.nodes b = true →
    b ∈ vis ∨ b ∈ next

/-- A node with an outgoing link is present in the node map. -/
theorem linkStep_src_contains {g : Graph} {a b : NodeId}
    (h : LinkStep g a b) : containsA g.nodes a = true := by
  obtain ⟨nd, hnd, _⟩ := h
  simp [containsA, hnd]

/-- Processing one node preserves the walk invariant, for the ghost
set extended by the node exactly when it is fresh and pushed work. -/
theorem winv_step {g : Graph} {node : Node} {n : NodeId}
    {vis path pstar pushed : List NodeId} {flag : Bool}
    (hlk : lookupA g.nodes n = some node)
    (hpi : processInputs (path ++ [n]) (vis ++ [n]) node.inputsOf =
      .ok (pushed, flag))
    (hinv : WInv g vis path pstar) :
    WInv g (vis ++ [n]) (if flag then path ++ [n] else path)
      (if n ∈ vis then pstar else if flag then pstar ++ [n] else pstar) := by
  obtain ⟨hc1, hc2⟩ := processInputs_ok_covers _ _ _ _ _ hpi
  have hstep : ∀ b, LinkStep g n b → ∃ sock,
      ∃ x ∈ node.inputsOf, x.2.1 = some (SocketRef.node b sock) := by
    intro b hb
    obtain ⟨nd, hnd, x, hx, sock, hs⟩ := hb
    rw [hlk] at hnd
    cases hnd
    exact ⟨sock, x, hx, hs⟩
  have htgt : ∀ b, LinkStep g n b →
      b ∉ path ++ [n] ∧ (b ∈ vis ++ [n] ∨ b ∈ pushed) := by
    intro b hb
    obtain ⟨sock, x, hx, hs⟩ := hstep b hb
    exact hc1 x hx b sock hs
  have hnoselfn : ¬ LinkStep g n n := by
    intro hb
    exact (htgt n hb).1 (List.mem_append_right _ (List.mem_cons_self _ _))
  have hmemvis : ∀ {x : NodeId}, x ∈ vis ++ [n] → x ∈ vis ∨ x = n := by
    intro x hx
    rcases List.mem_append.mp hx with hx | hx
    · exact Or.inl hx
    · exact Or.inr (List.mem_singleton.mp hx)
  by_cases hn : n ∈ vis
  · -- revisit: visited list is extensionally unchanged
    have hsame : ∀ {x : NodeId}, x ∈ vis ++ [n] → x ∈ vis := by
      intro x hx
      rcases hmemvis hx with hx | hx
      · exact hx
      · exact hx ▸ hn
    have hfidx : ∀ {x : NodeId}, x ∈ vis → fidx (vis ++ [n]) x = fidx vis x :=
      fun hx => fidx_append_of_mem hx _
    rw [if_pos hn]
    refine ⟨?_, ?_, ?_, ?_, ?_⟩
    · intro x hx
      have := hinv.pstar_path x hx
      split
      · exact List.mem_append_left _ this
      · exact this
    · intro x hx
      split at hx
      · rcases List.mem_append.mp hx with hx2 | hx2
        · exact List.mem_append_left _ (hinv.path_vis x hx2)
        · exact List.mem_append_right _ hx2
      · exact List.mem_append_left _ (hinv.path_vis x hx)
    · intro a ha
      exact hinv.noself a (hsame ha)
    · intro a ha b hab hbex
      rcases hinv.edgeA a (hsame ha) b hab hbex with ⟨h1, h2, h3⟩ | h4
      · exact Or.inl ⟨List.mem_append_left _ h1,
          by rw [hfidx h1, hfidx (hsame ha)]; exact h2, h3⟩
      · exact Or.inr h4
    · intro a ha b hab hbex hbv hlt
      have ha2 := hsame ha
      have hb2 := hsame hbv
      rw [hfidx hb2, hfidx ha2] at hlt
      exact hinv.edgeB a ha2 b hab hbex hb2 hlt
  · -- first visit
    rw [if_neg hn]
    have hfidx : ∀ {x : NodeId}, x ∈ vis → fidx (vis ++ [n]) x = fidx vis x :=
      fun hx => fidx_append_of_mem hx _
    have hfidxn : fidx (vis ++ [n]) n = vis.length := fidx_append_self hn
    have hpstar' : ∀ {x : NodeId},
        x ∈ (if flag then pstar ++ [n] else pstar) → x ∈ pstar ∨ x = n := by
      intro x hx
      split at hx
      · rcases List.mem_append.mp hx with hx | hx
        · exact Or.inl hx
        · exact Or.inr (List.mem_singleton.mp hx)
      · exact Or.inl hx
    have hpstarsub : ∀ {x : NodeId},
        x ∈ pstar → x ∈ (if flag then pstar ++ [n] else pstar) := by
      intro x hx
      split
      · exact List.mem_append_left _ hx
      · exact hx
    refine ⟨?_, ?_, ?_, ?_, ?_⟩
    · intro x hx
      rcases hpstar' hx with hx2 | hx2
      · have := hinv.pstar_path x hx2
        split
        · exact List.mem_append_left _ this
        · exact this
      · subst hx2
        by_cases hfl : flag = true
        · rw [if_pos hfl]
          exact List.mem_append_right _ (List.mem_singleton.mpr rfl)
        · rw [if_neg hfl] at hx ⊢
          exact absurd (hinv.path_vis _ (hinv.pstar_path _ hx)) hn
    · intro x hx
      split at hx
      · rcases List.mem_append.mp hx with hx | hx
        · exact List.mem_append_left _ (hinv.path_vis x hx)
        · exact List.mem_append_right _ hx
      · exact List.mem_append_left _ (hinv.path_vis x hx)
    · intro a ha
      rcases hmemvis ha with ha | ha
      · exact hinv.noself a ha
      · subst ha
        exact hnoselfn
    · intro a ha b hab hbex
      rcases hmemvis ha with ha | ha
      · rcases hinv.edgeA a ha b hab hbex with ⟨h1, h2, h3⟩ | h4
        · refine Or.inl ⟨List.mem_append_left _ h1,
            by rw [hfidx h1, hfidx ha]; exact h2, ?_⟩
          intro hbp
          rcases hpstar' hbp with hbp | hbp
          · exact h3 hbp
          · exact hn (hbp ▸ h1)
        · exact Or.inr (hpstarsub h4)
      · subst ha
        obtain ⟨hnp, hmem⟩ := htgt b hab
        rcases hmem with hmem | hmem
        · rcases hmemvis hmem with hbv | hbn
          · -- already-visited target: went down in first-visit order
            refine Or.inl ⟨List.mem_append_left _ hbv, ?_, ?_⟩
            · rw [hfidx hbv, hfidxn]
              exact fidx_lt_length hbv
            · intro hbp
              rcases hpstar' hbp with hbp | hbp
              · exact hnp (List.mem_append_left _ (hinv.pstar_path b hbp))
              · exact hn (hbp ▸ hbv)
          · exact absurd (List.mem_append_right path
              (List.mem_singleton.mpr hbn)) hnp
        · -- pushed target: hence flag is true and a = n enters pstar
          have hfl : flag = true := by
            by_contra hq
            have := hc2 (by simpa using hq)
            rw [this] at hmem
            simp at hmem
          refine Or.inr ?_
          rw [if_pos hfl]
          exact List.mem_append_right _ (List.mem_singleton.mpr rfl)
    · intro a ha b hab hbex hbv hlt
      rcases hmemvis ha with ha2 | ha2
      · rcases hmemvis hbv with hbv2 | hbv2
        · rw [hfidx hbv2, hfidx ha2] at hlt
          have := hinv.edgeB a ha2 b hab hbex hbv2 hlt
          intro hbp
          rcases hpstar' hbp with hbp | hbp
          · exact this hbp
          · exact hn (hbp ▸ hbv2)
        · rw [hbv2] at hlt
          rw [hfidxn, hfidx ha2] at hlt
          have := fidx_lt_length ha2
          omega
      · rcases hmemvis hbv with hbv2 | hbv2
        · obtain ⟨hnp, _⟩ := htgt b (ha2 ▸ hab)
          intro hbp
          rcases hpstar' hbp with hbp | hbp
          · exact hnp (List.mem_append_left _ (hinv.pstar_path b hbp))
          · exact hn (hbp ▸ hbv2)
        · rw [ha2, hbv2] at hab
          exact absurd hab hnoselfn

/-- Every element of a chain has an outgoing step within the chain,
except possibly the final element. -/
theorem chain_out_edge {R : NodeId → NodeId → Prop} :
    ∀ (l : List NodeId) (a : NodeId), List.Chain R a l →
      ∀ x ∈ a :: l, (∃ y ∈ a :: l, R x y) ∨ l.getLast? = some x ∨
        (l = [] ∧ x = a) := by
  intro l
  induction l with
  | nil =>
    intro a _ x hx
    right; right
    exact ⟨rfl, List.mem_singleton.mp hx⟩
  | cons b l2 ih =>
    intro a hch x hx
    obtain ⟨hab, hch2⟩ := List.chain_cons.mp hch
    rcases List.mem_cons.mp hx with hx1 | hx1
    · exact Or.inl ⟨b, List.mem_cons_of_mem _ (List.mem_cons_self _ _),
        hx1 ▸ hab⟩
    · rcases ih b hch2 x hx1 with ⟨y, hy, hR⟩ | hgl | ⟨hl, hxb⟩
      · exact Or.inl ⟨y, List.mem_cons_of_mem _ hy, hR⟩
      · right; left
        cases l2 with
        | nil => simp at hgl
        | cons c2 l3 =>
          rw [List.getLast?_cons_cons]
          exact hgl
      · right; left
        subst hl
        subst hxb
        simp
/-- A closed link walk supplies every one of its members with an
outgoing link staying among the members. -/
theorem cycle_out_edges {g : Graph} {c : NodeId} (h : HasCycleAt g c) :
    ∃ lc, List.Chain (LinkStep g) c lc ∧ lc.getLast? = some c ∧
      ∀ x ∈ c :: lc, ∃ y ∈ c :: lc, LinkStep g x y := by
  obtain ⟨l, hne, hch, hlast⟩ := h
  refine ⟨l, hch, hlast, ?_⟩
  intro x hx
  rcases chain_out_edge l c hch x hx with hout | hgl | ⟨hl, _⟩
  · exact hout
  · rw [hlast] at hgl
    have hxc : c = x := Option.some.inj hgl
    subst hxc
    cases l with
    | nil => exact absurd rfl hne
    | cons b l2 =>
      obtain ⟨hcb, _⟩ := List.chain_cons.mp hch
      exact ⟨b, List.mem_cons_of_mem _ (List.mem_cons_self _ _), hcb⟩
  · exact absurd hl hne

/-- Members of a chain out of a visited node whose final element is a
real node are all visited, when the visited set is link-closed. -/
theorem chain_mem_vis {g : Graph} {vis : List NodeId}
    (hclo : ∀ a ∈ vis, ∀ b, LinkStep g a b →
      containsA g.nodes b = true → b ∈ vis) :
    ∀ (l : List NodeId) (a : NodeId), a ∈ vis → List.Chain (LinkStep g) a l →
      (∀ x, l.getLast? = some x → containsA g.nodes x = true) →
      ∀ x ∈ l, x ∈ vis := by
  intro l
  induction l with
  | nil =>
    intro a _ _ _ x hx
    simp at hx
  | cons b l2 ih =>
    intro a ha hch hlast x hx
    obtain ⟨hab, hch2⟩ := List.chain_cons.mp hch
    have hbcont : containsA g.nodes b = true := by
      cases l2 with
      | nil => exact hlast b (by simp)
      | cons c2 l3 =>
        obtain ⟨hbc, _⟩ := List.chain_cons.mp hch2
        exact linkStep_src_contains hbc
    have hbv : b ∈ vis := hclo a ha b hab hbcont
    rcases List.mem_cons.mp hx with hx1 | hx1
    · exact hx1 ▸ hbv
    · refine ih b hbv hch2 ?_ x hx1
      intro y hy
      cases l2 with
      | nil => simp at hy
      | cons c2 l3 =>
        refine hlast y ?_
        rw [List.getLast?_cons_cons]
        exact hy

/-- The validation walk drains its work list, preserving the invariant
and closure for a suitably extended ghost set, only growing the visited
list, and visiting every pending node that exists. -/
theorem walk_inv :
    ∀ (fuel : Nat) (g : Graph) (st st' : WalkSt),
      walk g fuel st = .ok st' →
      ∀ pstar, WInv g st.visited st.path pstar →
        Closed g st.visited st.next →
        ∃ pstar',
          (∀ x ∈ pstar, x ∈ pstar') ∧
          WInv g st'.visited st'.path pstar' ∧
          Closed g st'.visited [] ∧
          st'.next = [] ∧
          (∀ x ∈ st.visited, x ∈ st'.visited) ∧
          (∀ x ∈ st.next, containsA g.nodes x = true → x ∈ st'.visited) := by
  intro fuel
  induction fuel with
  | zero =>
    intro g st st' h
    rw [walk, dif_pos rfl] at h
    cases h
  | succ f ih =>
    intro g st st' h pstar hinv hclo
    rw [walk, dif_neg (Nat.succ_ne_zero f)] at h
    simp only [Nat.add_sub_cancel] at h
    rcases st with ⟨path, vis, nx⟩
    dsimp only at h hinv hclo ⊢
    cases nx with
    | nil =>
      cases h
      exact ⟨pstar, fun x hx => hx, hinv, hclo, rfl, fun x hx => hx,
        by intro x hx; simp at hx⟩
    | cons cur rest =>
      dsimp only at h
      cases hlk : lookupA g.nodes cur with
      | none =>
        rw [hlk] at h
        dsimp only at h
        have hclo2 : Closed g vis rest := by
          intro a ha b hab hbex
          rcases hclo a ha b hab hbex with hb | hb
          · exact Or.inl hb
          · rcases List.mem_cons.mp hb with hb1 | hb1
            · subst hb1
              simp [containsA, hlk] at hbex
            · exact Or.inr hb1
        obtain ⟨pstar', hsub, hinv', hclo', hnext', hvg, hdr⟩ :=
          ih g ⟨path, vis, rest⟩ st' h pstar hinv hclo2
        refine ⟨pstar', hsub, hinv', hclo', hnext', hvg, ?_⟩
        intro x hx hex
        rcases List.mem_cons.mp hx with hx1 | hx1
        · subst hx1
          simp [containsA, hlk] at hex
        · exact hdr x hx1 hex
      | some node =>
        rw [hlk] at h
        dsimp only at h
        cases hpi : processInputs (path ++ [cur]) (vis ++ [cur])
            node.inputsOf with
        | error e =>
          rw [hpi] at h
          dsimp only at h
          cases h
        | ok p =>
          rcases p with ⟨pushed, flag⟩
          rw [hpi] at h
          dsimp only at h
          have hinv2 := winv_step hlk hpi hinv
          have hclo2 : Closed g (vis ++ [cur]) (pushed.reverse ++ rest) := by
            intro a ha b hab hbex
            rcases List.mem_append.mp ha with ha1 | ha1
            · rcases hclo a ha1 b hab hbex with hb | hb
              · exact Or.inl (List.mem_append_left _ hb)
              · rcases List.mem_cons.mp hb with hb1 | hb1
                · subst hb1
                  exact Or.inl (List.mem_append_right _
                    (List.mem_singleton.mpr rfl))
                · exact Or.inr (List.mem_append_right _ hb1)
            · have ha2 : a = cur := List.mem_singleton.mp ha1
              subst ha2
              obtain ⟨hc1, _⟩ := processInputs_ok_covers _ _ _ _ _ hpi
              obtain ⟨nd, hnd, x, hx, sock, hs⟩ := hab
              rw [hlk] at hnd
              cases hnd
              obtain ⟨_, hm⟩ := hc1 x hx b sock hs
              rcases hm with hm1 | hm1
              · exact Or.inl hm1
              · exact Or.inr (List.mem_append_left _
                  (List.mem_reverse.mpr hm1))
          obtain ⟨pstar', hsub, hinv', hclo', hnext', hvg, hdr⟩ :=
            ih g _ st' h _ hinv2 hclo2
          refine ⟨pstar', ?_, hinv', hclo', hnext', ?_, ?_⟩
          · intro x hx
            refine hsub x ?_
            split
            · exact hx
            · split
              · exact List.mem_append_left _ hx
              · exact hx
          · intro x hx
            exact hvg x (List.mem_append_left _ hx)
          · intro x hx hex
            rcases List.mem_cons.mp hx with hx1 | hx1
            · subst hx1
              exact hvg x (List.mem_append_right _
                (List.mem_singleton.mpr rfl))
            · exact hdr x (List.mem_append_right _ hx1) hex

/-- The outputs loop of validation preserves the invariant and, on
success, has visited the target node of every node-linked declared
output that exists in the node map. -/
theorem checkOutputs_inv :
    ∀ (l : List (Name × Option SocketRef × SocketValue)) (g : Graph)
      (fuel : Nat) (st st' : WalkSt),
      checkOutputs g fuel l st = .ok st' → st.next = [] →
      ∀ pstar, WInv g st.visited st.path pstar →
        Closed g st.visited [] →
        ∃ pstar',
          WInv g st'.visited st'.path pstar' ∧
          Closed g st'.visited [] ∧ st'.next = [] ∧
          (∀ x ∈ st.visited, x ∈ st'.visited) ∧
          (∀ nm r sock v, (nm, some (SocketRef.node r sock), v) ∈ l →
            containsA g.nodes r = true → r ∈ st'.visited) := by
  intro l
  induction l with
  | nil =>
    intro g fuel st st' h hnil pstar hinv hclo
    simp only [checkOutputs] at h
    cases h
    refine ⟨pstar, hinv, hclo, hnil, fun x hx => hx, ?_⟩
    intro nm r sock v hmem
    simp at hmem
  | cons hd tl ih =>
    intro g fuel st st' h hnil pstar hinv hclo
    rcases hd with ⟨outName, ref, value⟩
    cases ref with
    | none =>
      simp only [checkOutputs] at h
      split at h
      · cases h
      · obtain ⟨pstar', hinv', hclo', hnil', hvg, hcov⟩ :=
          ih g fuel st st' h hnil pstar hinv hclo
        refine ⟨pstar', hinv', hclo', hnil', hvg, ?_⟩
        intro nm r sock v hmem hex
        rcases List.mem_cons.mp hmem with hmem1 | hmem1
        · simp at hmem1
        · exact hcov nm r sock v hmem1 hex
    | some sr =>
      cases sr with
      | graph f =>
        simp only [checkOutputs] at h
        obtain ⟨pstar', hinv', hclo', hnil', hvg, hcov⟩ :=
          ih g fuel st st' h hnil pstar hinv hclo
        refine ⟨pstar', hinv', hclo', hnil', hvg, ?_⟩
        intro nm r sock v hmem hex
        rcases List.mem_cons.mp hmem with hmem1 | hmem1
        · simp at hmem1
        · exact hcov nm r sock v hmem1 hex
      | node nid sock0 =>
        simp only [checkOutputs] at h
        split at h
        · rename_i hvis
          obtain ⟨pstar', hinv', hclo', hnil', hvg, hcov⟩ :=
            ih g fuel st st' h hnil pstar hinv hclo
          refine ⟨pstar', hinv', hclo', hnil', hvg, ?_⟩
          intro nm r sock v hmem hex
          rcases List.mem_cons.mp hmem with hmem1 | hmem1
          · simp only [Prod.mk.injEq, Option.some.injEq,
              SocketRef.node.injEq] at hmem1
            obtain ⟨_, ⟨hr, _⟩, _⟩ := hmem1
            subst hr
            exact hvg r hvis
          · exact hcov nm r sock v hmem1 hex
        · rename_i hvis
          cases hw : walk g fuel ⟨st.path, st.visited, st.next ++ [nid]⟩ with
          | ok stW =>
            rw [hw] at h
            dsimp only at h
            have hcloW : Closed g st.visited (st.next ++ [nid]) := by
              intro a ha b hab hbex
              rcases hclo a ha b hab hbex with hb | hb
              · exact Or.inl hb
              · simp at hb
            obtain ⟨pstarW, _, hinvW, hcloW2, hnextW, hvgW, hdrW⟩ :=
              walk_inv fuel g ⟨st.path, st.visited, st.next ++ [nid]⟩ stW hw
                pstar hinv hcloW
            obtain ⟨pstar', hinv', hclo', hnil', hvg', hcov'⟩ :=
              ih g fuel stW st' h hnextW pstarW hinvW hcloW2
            refine ⟨pstar', hinv', hclo', hnil', ?_, ?_⟩
            · intro x hx
              exact hvg' x (hvgW x hx)
            · intro nm r sock v hmem hex
              rcases List.mem_cons.mp hmem with hmem1 | hmem1
              · simp only [Prod.mk.injEq, Option.some.injEq,
                  SocketRef.node.injEq] at hmem1
                obtain ⟨_, ⟨hr, _⟩, _⟩ := hmem1
                subst hr
                refine hvg' r (hdrW r ?_ hex)
                exact List.mem_append_right _ (List.mem_singleton.mpr rfl)
              · exact hcov' nm r sock v hmem1 hex
          | err e =>
            rw [hw] at h
            dsimp only at h
            cases h
          | panic =>
            rw [hw] at h
            dsimp only at h
            cases h
          | nofuel =>
            rw [hw] at h
            dsimp only at h
            cases h

/-- When validation succeeds, no link cycle is reachable from the
declared outputs: the walk invariant plus the link-closure of the
final visited list exclude any closed link walk through a reachable
node. -/
theorem validate_ok_no_cycle {fuel : Nat} {g g' : Graph}
    (h : validateF fuel g = .ok g') : ¬ HasReachableCycle g := by
  intro hcyc
  by_cases hf : fuel = 0
  · rw [validateF, dif_pos hf] at h
    cases h
  · rw [validateF, dif_neg hf] at h
    cases hco : checkOutputs g (fuel - 1) g.outputs ⟨[], [], []⟩ with
    | ok stF =>
      have hinv0 : WInv g ([] : List NodeId) [] [] := by
        refine ⟨?_, ?_, ?_, ?_, ?_⟩ <;> intro x hx <;> simp at hx
      have hclo0 : Closed g ([] : List NodeId) [] := by
        intro a ha
        simp at ha
      obtain ⟨pstarF, hinvF, hcloF, _, _, hcov⟩ :=
        checkOutputs_inv g.outputs g (fuel - 1) ⟨[], [], []⟩ stF hco rfl
          [] hinv0 hclo0
      have hcloF2 : ∀ a ∈ stF.visited, ∀ b, LinkStep g a b →
          containsA g.nodes b = true → b ∈ stF.visited := by
        intro a ha b hab hbex
        rcases hcloF a ha b hab hbex with hb | hb
        · exact hb
        · simp at hb
      obtain ⟨c, hreach, hcycAt⟩ := hcyc
      obtain ⟨lc, hchc, hlclast, hE⟩ := cycle_out_edges hcycAt
      have hcont : ∀ x ∈ c :: lc, containsA g.nodes x = true := by
        intro x hx
        obtain ⟨y, _, hR⟩ := hE x hx
        exact linkStep_src_contains hR
      have hccont : containsA g.nodes c = true :=
        hcont c (List.mem_cons_self _ _)
      obtain ⟨outName, sock, v, n₀, lreach, hout, hchR, hlastR⟩ := hreach
      have hn0cont : containsA g.nodes n₀ = true := by
        cases lreach with
        | nil =>
          have : n₀ = c := by
            simpa using hlastR
          exact this ▸ hccont
        | cons b l2 =>
          obtain ⟨hn0b, _⟩ := List.chain_cons.mp hchR
          exact linkStep_src_contains hn0b
      have hn0vis : n₀ ∈ stF.visited :=
        hcov outName n₀ sock v hout hn0cont
      have hcvis : c ∈ stF.visited := by
        cases lreach with
        | nil =>
          have : n₀ = c := by
            simpa using hlastR
          exact this ▸ hn0vis
        | cons b l2 =>
          have hlast2 : (b :: l2).getLast? = some c := by
            rw [← hlastR, List.getLast?_cons_cons]
          have hmem : ∀ x ∈ b :: l2, x ∈ stF.visited := by
            refine chain_mem_vis hcloF2 (b :: l2) n₀ hn0vis hchR ?_
            intro y hy
            rw [hlast2] at hy
            exact (Option.some.inj hy) ▸ hccont
          exact hmem c (mem_of_getLastQ hlast2)
      have hMvis : ∀ x ∈ c :: lc, x ∈ stF.visited := by
        intro x hx
        rcases List.mem_cons.mp hx with hx1 | hx1
        · exact hx1 ▸ hcvis
        · refine chain_mem_vis hcloF2 lc c hcvis hchc ?_ x hx1
          intro y hy
          rw [hlclast] at hy
          exact (Option.some.inj hy) ▸ hccont
      by_cases hall : ∀ x ∈ c :: lc, x ∈ pstarF
      · obtain ⟨xm, hxm, hmax⟩ :=
          exists_max_measure (fidx stF.visited) (c :: lc) (by simp)
        obtain ⟨y, hy, hR⟩ := hE xm hxm
        have hyex : containsA g.nodes y = true := hcont y hy
        have hxvis : xm ∈ stF.visited := hMvis xm hxm
        have hyvis : y ∈ stF.visited := hMvis y hy
        have hyne : y ≠ xm := by
          intro he
          exact hinvF.noself xm hxvis (he ▸ hR)
        have hlt : fidx stF.visited y < fidx stF.visited xm := by
          have hle := hmax y hy
          have hne2 : fidx stF.visited y ≠ fidx stF.visited xm :=
            fun he => hyne (fidx_inj hyvis hxvis he)
          omega
        exact hinvF.edgeB xm hxvis y hR hyex hyvis hlt (hall y hy)
      · push_neg at hall
        obtain ⟨x₀, hx₀M, hx₀p⟩ := hall
        have hx₀M' : x₀ ∈ (c :: lc).filter
            (fun x => decide (x ∉ pstarF)) := by
          refine List.mem_filter.mpr ⟨hx₀M, ?_⟩
          exact decide_eq_true hx₀p
        obtain ⟨xm, hxmF, hmin⟩ :=
          exists_min_measure (fidx stF.visited)
            ((c :: lc).filter (fun x => decide (x ∉ pstarF)))
            (List.ne_nil_of_mem hx₀M')
        obtain ⟨hxmM, hxmp0⟩ := List.mem_filter.mp hxmF
        have hxmp : xm ∉ pstarF := of_decide_eq_true hxmp0
        obtain ⟨y, hyM, hR⟩ := hE xm hxmM
        have hyex : containsA g.nodes y = true := hcont y hyM
        rcases hinvF.edgeA xm (hMvis xm hxmM) y hR hyex with
          ⟨hyvis, hylt, hyp⟩ | hxp
        · have hyF : y ∈ (c :: lc).filter (fun x => decide (x ∉ pstarF)) :=
            List.mem_filter.mpr ⟨hyM, decide_eq_true hyp⟩
          have := hmin y hyF
          omega
        · exact hxmp hxp
    | err e =>
      rw [hco] at h
      dsimp only at h
      cases h
    | panic =>
      rw [hco] at h
      dsimp only at h
      cases h
    | nofuel =>
      rw [hco] at h
      dsimp only at h
      cases h

/-- C4: corrected.  On a graph with a directed link cycle reachable
from a declared output, validate never returns Ok; and whenever
validate reports a Cycle error, the detected node is a member of the
reported path.  The reported path's first and last nodes, however,
need not be the same node, and a reachable cycle need not surface as a
Cycle error when an unlinked-and-unset output precedes it. -/
theorem C4_reachable_cycle_never_ok :
    (∀ fuel g, HasReachableCycle g → ∀ g', validateF fuel g ≠ .ok g') ∧
    (∀ fuel g dur s t d,
      validateF fuel g = .err (.Cycle dur s t d) → d ∈ dur) := by
  constructor
  · intro fuel g hcyc g' h
    exact validate_ok_no_cycle h hcyc
  · intro fuel g dur s t d h
    exact (validate_cycle_mem_all fuel).1 g dur s t d h

/-- Witness for C4 at the repository's own cyclic test graph: it has a
reachable cycle, so validation cannot succeed, and its actual Cycle
error detects node a inside the reported path a, b. -/
theorem C4_reachable_cycle_never_ok_witness :
    validateF 10 gCyc ≠ .ok gCyc ∧
    ("a" : NodeId) ∈ (["a", "b"] : List NodeId) := by
  constructor
  · refine C4_reachable_cycle_never_ok.1 10 gCyc ?_ gCyc
    have hab : LinkStep gCyc "a" "b" := by
      refine ⟨Node.graph [("value", (some (.node "b" "value"), .Value))]
          [("value", .Value none)] noopShader, ?_,
        ("value", (some (.node "b" "value"), .Value)), ?_, "value", rfl⟩
      · simp [gCyc, lookupA, Graph.nodes]
      · simp [Node.inputsOf]
    have hba : LinkStep gCyc "b" "a" := by
      refine ⟨Node.graph [("value", (some (.node "a" "value"), .Value))]
          [("value", .Value none)] noopShader, ?_,
        ("value", (some (.node "a" "value"), .Value)), ?_, "value", rfl⟩
      · simp [gCyc, lookupA, Graph.nodes]
      · simp [Node.inputsOf]
    refine ⟨"a",
      ⟨"value", "value", .Value none, "a", [], ?_, List.Chain.nil, rfl⟩,
      ⟨["b", "a"], by simp, ?_, rfl⟩⟩
    · simp [gCyc, Graph.outputs]
    · exact List.Chain.cons hab (List.Chain.cons hba List.Chain.nil)
  · exact C4_reachable_cycle_never_ok.2 10 gCyc ["a", "b"] "value" "value" "a"
      (by simp [validateF, validateNodesF, validateNodeF, checkOutputs, walk,
        processInputs, lookupA, containsA, Graph.inputs, Graph.outputs,
        Graph.nodes, Node.inputsOf, Node.outputsOf, SocketValue.isNoneV,
        noopShader, gCyc])

mutual

/-- Skeleton of a graph: the wiring and shaders with every mutable
part (input map, output map, cached socket values) erased.  All the
run functions preserve the skeleton. -/
def Graph.skel : Graph → Graph
  | .mk _ _ ns => .mk [] [] (skelPairs ns)

/-- Skeleton of a node map. -/
def skelPairs : List (NodeId × Node) → List (NodeId × Node)
  | [] => []
  | (k, nd) :: rest => (k, Node.skel nd) :: skelPairs rest

/-- Skeleton of a node: a GraphNode keeps its input sockets and its
shader; an ImportedNode keeps its name, input sockets and the skeleton
of its inner graph. -/
def Node.skel : Node → Node
  | .graph ins _ s => .graph ins [] s
  | .imported nm ins inner => .imported nm ins (Graph.skel inner)

end

mutual

/-- Whether the shading target named by a nesting path is fully
computed: a singleton path names a GraphNode whose outputs all carry
values; a longer path descends through an ImportedNode. -/
def pathSetN : List (NodeId × Node) → List NodeId → Bool
  | _, [] => true
  | ns, n :: p =>
    match lookupA ns n with
    | some nd => nodePS nd p
    | none => false
termination_by ns p => (p.length, 0)

/-- Node-level step of pathSetN. -/
def nodePS : Node → List NodeId → Bool
  | .graph _ outs _, [] => outs.all (fun x => !x.2.isNoneV)
  | .imported _ _ inner, q :: qs => pathSetN inner.nodes (q :: qs)
  | _, _ => false
termination_by nd p => (p.length, 1)

end

/-- A shader that always fills every output it returns: whenever its
call succeeds, the returned output map has no unset value.  This is
the claim's premise that every shading function sets all of its node's
declared outputs. -/
def Shader.completing (s : Shader) : Prop :=
  ∀ i o o', s.call i o = .ok o' → o'.all (fun x => !x.2.isNoneV) = true

mutual

/-- Safety of a graph for running, stated on skeletons: no closed link
walk anywhere in the node map, and every node safe. -/
inductive SafeG : Graph → Prop where
  | mk : ∀ ins outs ns,
      (∀ c, ¬ HasCycleAt (Graph.mk ins outs ns) c) →
      (∀ k nd, (k, nd) ∈ ns → SafeN nd) →
      SafeG (Graph.mk ins outs ns)

/-- Safety of a node: a GraphNode carries a completing shader, an
ImportedNode carries a safe inner graph. -/
inductive SafeN : Node → Prop where
  | graph : ∀ ins outs s, s.completing → SafeN (.graph ins outs s)
  | imported : ∀ nm ins inner, SafeG inner → SafeN (.imported nm ins inner)

end

/-- Link-reachability between nodes. -/
def Reach (g : Graph) : NodeId → NodeId → Prop :=
  Relation.ReflTransGen (LinkStep g)

/-- The bundle of facts carried through the run functions: the graph
skeleton is unchanged, the trace is duplicate-free with nonempty
entries, every traced target was unset on entry and is set on exit,
and set targets stay set. -/
structure RunOk (g g' : Graph) (tr : Trace) : Prop where
  skel_eq : g'.skel = g.skel
  nodup : tr.Nodup
  nonnil : ∀ p ∈ tr, p ≠ []
  unset : ∀ p ∈ tr, pathSetN g.nodes p = false
  mono : ∀ p, pathSetN g.nodes p = true → pathSetN g'.nodes p = true
  setAfter : ∀ p ∈ tr, pathSetN g'.nodes p = true

/-- Updating an existing key makes lookups of that key see the new
value. -/
theorem lookupA_setA_self :
    ∀ (l : List (String × α)) (k : String) (v nv : α),
      lookupA l k = some v → lookupA (setA l k nv) k = some nv := by
  intro l
  induction l with
  | nil =>
    intro k v nv h
    simp [lookupA] at h
  | cons hd tl ih =>
    intro k v nv h
    rcases hd with ⟨k0, v0⟩
    by_cases hk : k0 = k
    · subst hk
      simp [setA, lookupA]
    · rw [lookupA, if_neg hk] at h
      rw [setA, if_neg hk, lookupA, if_neg hk]
      exact ih k v nv h

/-- Updating one key leaves lookups of other keys unchanged. -/
theorem lookupA_setA_ne :
    ∀ (l : List (String × α)) (k k' : String) (nv : α), k' ≠ k →
      lookupA (setA l k nv) k' = lookupA l k' := by
  intro l
  induction l with
  | nil =>
    intro k k' nv _
    simp [setA]
  | cons hd tl ih =>
    intro k k' nv hne
    rcases hd with ⟨k0, v0⟩
    by_cases hk : k0 = k
    · subst hk
      rw [setA, if_pos rfl, lookupA, lookupA]
      have : ¬ k0 = k' := fun he => hne (he ▸ rfl)
      rw [if_neg this, if_neg this]
    · rw [setA, if_neg hk, lookupA, lookupA]
      by_cases hk' : k0 = k'
      · rw [if_pos hk', if_pos hk']
      · rw [if_neg hk', if_neg hk']
        exact ih k k' nv hne

/-- Skeleton lookups are the skeletons of the original lookups. -/
theorem lookupA_skelPairs :
    ∀ (ns : List (NodeId × Node)) (k : NodeId),
      lookupA (skelPairs ns) k = (lookupA ns k).map Node.skel := by
  intro ns
  induction ns with
  | nil =>
    intro k
    simp [skelPairs, lookupA]
  | cons hd tl ih =>
    intro k
    rcases hd with ⟨k0, nd0⟩
    rw [skelPairs, lookupA, lookupA]
    by_cases hk : k0 = k
    · rw [if_pos hk, if_pos hk]
      rfl
    · rw [if_neg hk, if_neg hk]
      exact ih k

/-- Node map membership is carried into the skeleton. -/
theorem mem_skelPairs :
    ∀ (ns : List (NodeId × Node)) (k : NodeId) (nd : Node),
      (k, nd) ∈ ns → (k, Node.skel nd) ∈ skelPairs ns := by
  intro ns
  induction ns with
  | nil =>
    intro k nd h
    simp at h
  | cons hd tl ih =>
    intro k nd h
    rcases List.mem_cons.mp h with h1 | h1
    · subst h1
      exact List.mem_cons_self _ _
    · rcases hd with ⟨k0, nd0⟩
      exact List.mem_cons_of_mem _ (ih k nd h1)

/-- Skeletons do not change a node's input sockets. -/
theorem inputsOf_skel : ∀ nd : Node, (Node.skel nd).inputsOf = nd.inputsOf := by
  intro nd
  cases nd with
  | graph ins outs s => rfl
  | imported nm ins inner => rfl

/-- Replacing a node by one of equal skeleton leaves the node-map
skeleton unchanged. -/
theorem skelPairs_setA_eq :
    ∀ (ns : List (NodeId × Node)) (k : NodeId) (nd nd' : Node),
      lookupA ns k = some nd → Node.skel nd' = Node.skel nd →
      skelPairs (setA ns k nd') = skelPairs ns := by
  intro ns
  induction ns with
  | nil =>
    intro k nd nd' h _
    simp [lookupA] at h
  | cons hd tl ih =>
    intro k nd nd' h hsk
    rcases hd with ⟨k0, nd0⟩
    by_cases hk : k0 = k
    · rw [lookupA, if_pos hk] at h
      cases h
      rw [setA, if_pos hk, skelPairs, skelPairs, hsk]
    · rw [lookupA, if_neg hk] at h
      rw [setA, if_neg hk, skelPairs, skelPairs, ih k nd nd' h hsk]

/-- Link steps transfer between a graph and its skeleton. -/
theorem linkStep_iff_skel (g : Graph) (a b : NodeId) :
    LinkStep g a b ↔ LinkStep g.skel a b := by
  cases g with
  | mk gin gout ns =>
    constructor
    · intro ⟨nd, hl, x, hx, sock, hs⟩
      refine ⟨Node.skel nd, ?_, x, ?_, sock, hs⟩
      · show lookupA (skelPairs ns) a = some (Node.skel nd)
        rw [lookupA_skelPairs]
        simp only [Graph.nodes] at hl
        rw [hl]
        rfl
      · rw [inputsOf_skel]
        exact hx
    · intro ⟨nd, hl, x, hx, sock, hs⟩
      simp only [Graph.skel, Graph.nodes] at hl
      rw [lookupA_skelPairs] at hl
      cases hlo : lookupA ns a with
      | none => rw [hlo] at hl; cases hl
      | some nd0 =>
        rw [hlo] at hl
        cases hl
        refine ⟨nd0, hlo, x, ?_, sock, hs⟩
        rw [inputsOf_skel] at hx
        exact hx

/-- Closed link walks transfer to the skeleton. -/
theorem hasCycleAt_skel {g : Graph} {c : NodeId} (h : HasCycleAt g c) :
    HasCycleAt g.skel c := by
  obtain ⟨l, hne, hch, hlast⟩ := h
  exact ⟨l, hne, List.Chain.imp
    (fun a b hab => (linkStep_iff_skel g a b).mp hab) hch, hlast⟩

/-- Reachability transfers between graphs of equal skeleton. -/
theorem reach_of_skel {g₁ g₂ : Graph} (h : g₁.skel = g₂.skel)
    {a b : NodeId} (hr : Reach g₁ a b) : Reach g₂ a b := by
  refine Relation.ReflTransGen.mono ?_ hr
  intro x y hxy
  exact (linkStep_iff_skel g₂ x y).mpr (h ▸ (linkStep_iff_skel g₁ x y).mp hxy)

/-- A safe graph's member nodes are safe (via the skeleton). -/
theorem safeN_of_lookup {g : Graph} {nid : NodeId} {nd : Node}
    (hs : SafeG g.skel) (hlk : lookupA g.nodes nid = some nd) :
    SafeN (Node.skel nd) := by
  cases g with
  | mk gin gout ns =>
    simp only [Graph.skel] at hs
    cases hs with
    | mk _ _ _ hnc hns =>
      simp only [Graph.nodes] at hlk
      exact hns nid (Node.skel nd) (mem_skelPairs ns nid nd (lookupA_mem hlk))

/-- A safe graph has no closed link walk. -/
theorem no_cycle_of_safe {g : Graph} (hs : SafeG g.skel) (c : NodeId) :
    ¬ HasCycleAt g c := by
  intro h
  cases g with
  | mk gin gout ns =>
    have h2 := hasCycleAt_skel h
    simp only [Graph.skel] at hs h2
    cases hs with
    | mk _ _ _ hnc _ => exact hnc c h2

/-- The shader of a safe GraphNode is completing. -/
theorem completing_of_safeN {ins : List (Name × Option SocketRef × SocketType)}
    {outs : List (Name × SocketValue)} {s : Shader}
    (h : SafeN (Node.skel (.graph ins outs s))) : s.completing := by
  simp only [Node.skel] at h
  cases h with
  | graph _ _ _ hc => exact hc

/-- The inner graph of a safe ImportedNode is safe. -/
theorem safeG_of_safeN {nm : String}
    {ins : List (Name × Option SocketRef × SocketType)} {inner : Graph}
    (h : SafeN (Node.skel (.imported nm ins inner))) : SafeG inner.skel := by
  simp only [Node.skel] at h
  cases h with
  | imported _ _ _ hg => exact hg

/-- Extending a chain by one step at its final element. -/
theorem chain_snoc {R : NodeId → NodeId → Prop} :
    ∀ (l : List NodeId) (a b c : NodeId), List.Chain R a l →
      (a :: l).getLast? = some b → R b c → List.Chain R a (l ++ [c]) := by
  intro l
  induction l with
  | nil =>
    intro a b c _ hlast hbc
    have hab : a = b := by simpa using hlast
    subst hab
    exact List.Chain.cons hbc List.Chain.nil
  | cons d l2 ih =>
    intro a b c hch hlast hbc
    obtain ⟨had, hch2⟩ := List.chain_cons.mp hch
    rw [List.getLast?_cons_cons] at hlast
    exact List.Chain.cons had (ih d b c hch2 hlast hbc)

/-- Reachability unfolds to a link chain ending at the target. -/
theorem reach_to_chain {g : Graph} {a b : NodeId} (h : Reach g a b) :
    ∃ l, List.Chain (LinkStep g) a l ∧ (a :: l).getLast? = some b := by
  induction h with
  | refl => exact ⟨[], List.Chain.nil, rfl⟩
  | tail h2 hbc ih =>
    obtain ⟨l, hch, hlast⟩ := ih
    refine ⟨l ++ [_], chain_snoc l a _ _ hch hlast hbc, ?_⟩
    rw [show (a :: (l ++ [_])) = (a :: l) ++ [_] from rfl]
    exact List.getLast?_concat _

/-- A link step into a node that reaches back to the source closes a
link walk. -/
theorem cycle_of_step_reach {g : Graph} {a m : NodeId}
    (hstep : LinkStep g a m) (hreach : Reach g m a) : HasCycleAt g a := by
  obtain ⟨l, hch, hlast⟩ := reach_to_chain hreach
  refine ⟨m :: l, by simp, List.Chain.cons hstep hch, hlast⟩

/-- Path-setness after replacing a node whose node-level path-setness
only grows. -/
theorem pathSetN_setA_mono {ns : List (NodeId × Node)} {nid : NodeId}
    {nd nd' : Node} (hlk : lookupA ns nid = some nd)
    (hmono : ∀ q, nodePS nd q = true → nodePS nd' q = true) :
    ∀ p, pathSetN ns p = true → pathSetN (setA ns nid nd') p = true := by
  intro p
  cases p with
  | nil =>
    intro _
    rw [pathSetN]
  | cons n q =>
    intro h
    rw [pathSetN] at h
    rw [pathSetN]
    by_cases hn : n = nid
    · subst hn
      rw [hlk] at h
      rw [lookupA_setA_self ns n nd nd' hlk]
      exact hmono q h
    · rw [lookupA_setA_ne ns nid n nd' hn]
      exact h

/-- Path-setness after replacing a node of identical node-level
path-setness. -/
theorem pathSetN_setA_congr {ns : List (NodeId × Node)} {nid : NodeId}
    {nd nd' : Node} (hlk : lookupA ns nid = some nd)
    (hcong : ∀ q, nodePS nd' q = nodePS nd q) :
    ∀ p, pathSetN (setA ns nid nd') p = pathSetN ns p := by
  intro p
  cases p with
  | nil =>
    rw [pathSetN, pathSetN]
  | cons n q =>
    rw [pathSetN, pathSetN]
    by_cases hn : n = nid
    · subst hn
      rw [hlk, lookupA_setA_self ns n nd nd' hlk]
      exact hcong q
    · rw [lookupA_setA_ne ns nid n nd' hn]

/-- The empty run bundle. -/
theorem RunOk.of_eq {g : Graph} : RunOk g g [] :=
  ⟨rfl, List.nodup_nil, by simp, by simp, fun _ h => h, by simp⟩

/-- Sequential composition of run bundles: traces concatenate and stay
duplicate-free because the first phase's targets are set when the
second phase starts. -/
theorem RunOk.comp {g g₁ g₂ : Graph} {tr₁ tr₂ : Trace}
    (h₁ : RunOk g g₁ tr₁) (h₂ : RunOk g₁ g₂ tr₂) :
    RunOk g g₂ (tr₁ ++ tr₂) := by
  have hdisj : tr₁.Disjoint tr₂ := by
    intro p hp1 hp2
    have ht := h₁.setAfter p hp1
    have hf := h₂.unset p hp2
    rw [ht] at hf
    cases hf
  refine ⟨h₂.skel_eq.trans h₁.skel_eq, ?_, ?_, ?_, ?_, ?_⟩
  · exact (List.nodup_append).mpr ⟨h₁.nodup, h₂.nodup, hdisj⟩
  · intro p hp
    rcases List.mem_append.mp hp with hp1 | hp1
    · exact h₁.nonnil p hp1
    · exact h₂.nonnil p hp1
  · intro p hp
    rcases List.mem_append.mp hp with hp1 | hp1
    · exact h₁.unset p hp1
    · cases hps : pathSetN g.nodes p with
      | false => rfl
      | true =>
        have := h₁.mono p hps
        rw [h₂.unset p hp1] at this
        cases this
  · intro p hp
    exact h₂.mono p (h₁.mono p hp)
  · intro p hp
    rcases List.mem_append.mp hp with hp1 | hp1
    · exact h₂.mono p (h₁.setAfter p hp1)
    · exact h₂.setAfter p hp1

/-- The nodes of a graph with replaced outputs. -/
theorem nodes_withOutputs (g : Graph)
    (outs : List (Name × Option SocketRef × SocketValue)) :
    (Graph.withOutputs g outs).nodes = g.nodes := rfl

/-- The skeleton of a graph with replaced outputs. -/
theorem skel_withOutputs (g : Graph)
    (outs : List (Name × Option SocketRef × SocketValue)) :
    (Graph.withOutputs g outs).skel = g.skel := by
  cases g with
  | mk i o ns =>
    simp only [Graph.withOutputs, Graph.inputs, Graph.nodes, Graph.skel]

/-- The nodes of a graph with a replaced node. -/
theorem nodes_updateNode (g : Graph) (nid : NodeId) (nd : Node) :
    (g.updateNode nid nd).nodes = setA g.nodes nid nd := rfl

/-- The skeleton of a graph after replacing a node by one of equal
skeleton. -/
theorem skel_updateNode {g : Graph} {nid : NodeId} {nd nd' : Node}
    (hlk : lookupA g.nodes nid = some nd)
    (hsk : Node.skel nd' = Node.skel nd) :
    (g.updateNode nid nd').skel = g.skel := by
  cases g with
  | mk i o ns =>
    simp only [Graph.nodes] at hlk
    simp only [Graph.updateNode, Graph.inputs, Graph.outputs, Graph.nodes,
      Graph.skel]
    rw [skelPairs_setA_eq ns nid nd nd' hlk hsk]

/-- Bundle statement for Graph::run at a given fuel. -/
def PRun (f : Nat) : Prop := ∀ g g' tr,
  runF f g = (.ok g', tr) → SafeG g.skel → RunOk g g' tr

/-- Bundle statement for the outputs loop of Graph::run. -/
def POuts (f : Nat) : Prop := ∀ g l outs g' tr,
  runOutsF f g l = (.ok (outs, g'), tr) → SafeG g.skel → RunOk g g' tr

/-- Bundle statement for SocketRef resolution, with the origin of every
trace entry. -/
def PRes (f : Nat) : Prop := ∀ g r v g' tr,
  resolveRefF f g r = (.ok (v, g'), tr) → SafeG g.skel →
  RunOk g g' tr ∧ ∀ p ∈ tr, ∃ hd t m sock, p = hd :: t ∧
    r = SocketRef.node m sock ∧ Reach g m hd

/-- Bundle statement for Graph::run_node, with the origin of every
trace entry. -/
def PNode (f : Nat) : Prop := ∀ g nid g' tr,
  runNodeF f g nid = (.ok g', tr) → SafeG g.skel →
  RunOk g g' tr ∧ ∀ p ∈ tr, ∃ hd t, p = hd :: t ∧ Reach g nid hd

/-- Bundle statement for GraphNode input resolution. -/
def PIng (f : Nat) : Prop := ∀ g l acc res g' tr,
  runInputsGF f g l acc = (.ok (res, g'), tr) → SafeG g.skel →
  RunOk g g' tr ∧ ∀ p ∈ tr, ∃ hd t name m sock ty, p = hd :: t ∧
    (name, some (SocketRef.node m sock), ty) ∈ l ∧ Reach g m hd

/-- Bundle statement for ImportedNode input resolution. -/
def PImp (f : Nat) : Prop := ∀ g nid l g' tr,
  runInputsImpF f g nid l = (.ok g', tr) → SafeG g.skel →
  RunOk g g' tr ∧ ∀ p ∈ tr, ∃ hd t name m sock ty, p = hd :: t ∧
    (name, some (SocketRef.node m sock), ty) ∈ l ∧ Reach g m hd

/-- Resolution step: the bundle of run_node at one fuel level gives
the bundle of SocketRef resolution at the next. -/
theorem PRes_step (f : Nat) (hN : PNode f) : PRes (f + 1) := by
  intro g r v g' tr h hs
  rw [resolveRefF.eq_def, dif_neg (Nat.succ_ne_zero f)] at h
  simp only [Nat.add_sub_cancel] at h
  cases r with
  | graph field =>
    dsimp only at h
    cases hlo : lookupA g.inputs field with
    | some v0 =>
      rw [hlo] at h
      dsimp only at h
      cases h
      exact ⟨RunOk.of_eq, by simp⟩
    | none =>
      rw [hlo] at h
      dsimp only at h
      cases h
  | node id field =>
    dsimp only at h
    cases hrn : runNodeF f g id with
    | mk rr tr0 =>
      rw [hrn] at h
      cases rr with
      | ok g₁ =>
        dsimp only at h
        cases hl1 : lookupA g₁.nodes id with
        | none =>
          rw [hl1] at h
          dsimp only at h
          cases h
        | some nd =>
          rw [hl1] at h
          dsimp only at h
          cases hl2 : lookupA nd.outputsOf field with
          | none =>
            rw [hl2] at h
            dsimp only at h
            cases h
          | some v0 =>
            rw [hl2] at h
            dsimp only at h
            cases h
            obtain ⟨hok, hrch⟩ := hN _ _ _ _ hrn hs
            refine ⟨hok, ?_⟩
            intro p hp
            obtain ⟨hd, t, heq, hr⟩ := hrch p hp
            exact ⟨hd, t, id, field, heq, rfl, hr⟩
      | err e =>
        dsimp only at h
        cases h
      | panic =>
        dsimp only at h
        cases h
      | nofuel =>
        dsimp only at h
        cases h

/-- Run step: the bundle of the outputs loop at one fuel level gives
the bundle of Graph::run at the next. -/
theorem PRun_step (f : Nat) (hO : POuts f) : PRun (f + 1) := by
  intro g g' tr h hs
  rw [runF, dif_neg (Nat.succ_ne_zero f)] at h
  simp only [Nat.add_sub_cancel] at h
  cases hro : runOutsF f g (g.outputs.filter fun x => x.2.2.isNoneV) with
  | mk rr tr0 =>
    rw [hro] at h
    cases rr with
    | ok p0 =>
      rcases p0 with ⟨outs, g₁⟩
      dsimp only at h
      cases h
      have hok := hO _ _ _ _ _ hro hs
      refine ⟨?_, hok.nodup, hok.nonnil, hok.unset, ?_, ?_⟩
      · rw [skel_withOutputs]
        exact hok.skel_eq
      · intro p hp
        rw [nodes_withOutputs]
        exact hok.mono p hp
      · intro p hp
        rw [nodes_withOutputs]
        exact hok.setAfter p hp
    | err e =>
      dsimp only at h
      cases h
    | panic =>
      dsimp only at h
      cases h
    | nofuel =>
      dsimp only at h
      cases h

/-- Outputs-loop step: reference resolution at a fuel level gives the
outputs loop at the same level. -/
theorem POuts_of_PRes (f : Nat) (hR : PRes f) : POuts f := by
  have main : ∀ l g outs g' tr,
      runOutsF f g l = (.ok (outs, g'), tr) → SafeG g.skel →
      RunOk g g' tr := by
    intro l
    induction l with
    | nil =>
      intro g outs g' tr h hs
      simp only [runOutsF] at h
      cases h
      exact RunOk.of_eq
    | cons hd rest ih =>
      intro g outs g' tr h hs
      rcases hd with ⟨name, ref, value⟩
      cases ref with
      | none =>
        simp only [runOutsF] at h
        cases hro : runOutsF f g rest with
        | mk rr tr0 =>
          rw [hro] at h
          cases rr with
          | ok p0 =>
            rcases p0 with ⟨outs0, g0⟩
            dsimp only at h
            cases h
            exact ih _ _ _ _ hro hs
          | err e =>
            dsimp only at h
            cases h
          | panic =>
            dsimp only at h
            cases h
          | nofuel =>
            dsimp only at h
            cases h
      | some r =>
        simp only [runOutsF] at h
        cases hrr : resolveRefF f g r with
        | mk rr1 tr1 =>
          rw [hrr] at h
          cases rr1 with
          | ok p1 =>
            rcases p1 with ⟨v1, g1⟩
            dsimp only at h
            cases hro : runOutsF f g1 rest with
            | mk rr2 tr2 =>
              rw [hro] at h
              cases rr2 with
              | ok p2 =>
                rcases p2 with ⟨outs2, g2⟩
                dsimp only at h
                cases h
                have hok1 := (hR _ _ _ _ _ hrr hs).1
                have hs1 : SafeG g1.skel := hok1.skel_eq.symm ▸ hs
                exact RunOk.comp hok1 (ih _ _ _ _ hro hs1)
              | err e =>
                dsimp only at h
                cases h
              | panic =>
                dsimp only at h
                cases h
              | nofuel =>
                dsimp only at h
                cases h
          | err e =>
            dsimp only at h
            cases h
          | panic =>
            dsimp only at h
            cases h
          | nofuel =>
            dsimp only at h
            cases h
  intro g l outs g' tr h hs
  exact main l g outs g' tr h hs

/-- GraphNode input step: reference resolution at a fuel level gives
the GraphNode input loop at the same level. -/
theorem PIng_of_PRes (f : Nat) (hR : PRes f) : PIng f := by
  have main : ∀ l g acc res g' tr,
      runInputsGF f g l acc = (.ok (res, g'), tr) → SafeG g.skel →
      RunOk g g' tr ∧ ∀ p ∈ tr, ∃ hd t name m sock ty, p = hd :: t ∧
        (name, some (SocketRef.node m sock), ty) ∈ l ∧ Reach g m hd := by
    intro l
    induction l with
    | nil =>
      intro g acc res g' tr h hs
      simp only [runInputsGF] at h
      cases h
      exact ⟨RunOk.of_eq, by simp⟩
    | cons hd0 rest ih =>
      intro g acc res g' tr h hs
      rcases hd0 with ⟨name, ref, ty⟩
      cases ref with
      | none =>
        simp only [runInputsGF] at h
        obtain ⟨hok, hrch⟩ := ih _ _ _ _ _ h hs
        refine ⟨hok, ?_⟩
        intro p hp
        obtain ⟨hd, t, name1, m, sock, ty1, heq, hmem, hr⟩ := hrch p hp
        exact ⟨hd, t, name1, m, sock, ty1, heq,
          List.mem_cons_of_mem _ hmem, hr⟩
      | some r =>
        simp only [runInputsGF] at h
        cases hrr : resolveRefF f g r with
        | mk rr1 tr1 =>
          rw [hrr] at h
          cases rr1 with
          | ok p1 =>
            rcases p1 with ⟨v1, g1⟩
            dsimp only at h
            cases hri : runInputsGF f g1 rest (insertA acc name v1) with
            | mk rr2 tr2 =>
              rw [hri] at h
              dsimp only at h
              cases h
              obtain ⟨hok1, hrch1⟩ := hR _ _ _ _ _ hrr hs
              have hs1 : SafeG g1.skel := hok1.skel_eq.symm ▸ hs
              obtain ⟨hok2, hrch2⟩ := ih _ _ _ _ _ hri hs1
              refine ⟨RunOk.comp hok1 hok2, ?_⟩
              intro p hp
              rcases List.mem_append.mp hp with hp1 | hp1
              · obtain ⟨hd, t, m, sock, heq, hreq, hreach⟩ := hrch1 p hp1
                subst hreq
                exact ⟨hd, t, name, m, sock, ty, heq,
                  List.mem_cons_self _ _, hreach⟩
              · obtain ⟨hd, t, name1, m, sock, ty1, heq, hmem, hreach⟩ :=
                  hrch2 p hp1
                exact ⟨hd, t, name1, m, sock, ty1, heq,
                  List.mem_cons_of_mem _ hmem,
                  reach_of_skel hok1.skel_eq hreach⟩
          | err e =>
            dsimp only at h
            cases h
          | panic =>
            dsimp only at h
            cases h
          | nofuel =>
            dsimp only at h
            cases h
  intro g l acc res g' tr h hs
  exact main l g acc res g' tr h hs

/-- ImportedNode input step: reference resolution at a fuel level
gives the ImportedNode input loop at the same level. -/
theorem PImp_of_PRes (f : Nat) (hR : PRes f) : PImp f := by
  have main : ∀ l g nid g' tr,
      runInputsImpF f g nid l = (.ok g', tr) → SafeG g.skel →
      RunOk g g' tr ∧ ∀ p ∈ tr, ∃ hd t name m sock ty, p = hd :: t ∧
        (name, some (SocketRef.node m sock), ty) ∈ l ∧ Reach g m hd := by
    intro l
    induction l with
    | nil =>
      intro g nid g' tr h hs
      simp only [runInputsImpF] at h
      cases h
      exact ⟨RunOk.of_eq, by simp⟩
    | cons hd0 rest ih =>
      intro g nid g' tr h hs
      rcases hd0 with ⟨name, ref, ty⟩
      cases ref with
      | some r =>
        simp only [runInputsImpF] at h
        cases hrr : resolveRefF f g r with
        | mk rr1 tr1 =>
          rw [hrr] at h
          cases rr1 with
          | ok p1 =>
            rcases p1 with ⟨v1, g1⟩
            dsimp only at h
            cases hlk : lookupA g1.nodes nid with
            | none =>
              rw [hlk] at h
              dsimp only at h
              cases h
            | some nd =>
              rw [hlk] at h
              cases nd with
              | graph a b c =>
                dsimp only at h
                cases h
              | imported nm ins2 inner =>
                rcases inner with ⟨ii, io, inds⟩
                dsimp only [Graph.inputs, Graph.outputs, Graph.nodes] at h
                cases hri : runInputsImpF f
                    (g1.updateNode nid (.imported nm ins2
                      (.mk (insertA ii name v1) io inds))) nid rest with
                | mk rr2 tr2 =>
                  rw [hri] at h
                  dsimp only at h
                  cases h
                  obtain ⟨hok1, hrch1⟩ := hR _ _ _ _ _ hrr hs
                  have hs1 : SafeG g1.skel := hok1.skel_eq.symm ▸ hs
                  have hsk2 : Node.skel (Node.imported nm ins2
                      (.mk (insertA ii name v1) io inds)) =
                      Node.skel (Node.imported nm ins2 (.mk ii io inds)) := by
                    simp [Node.skel, Graph.skel]
                  have hcong : ∀ q, nodePS (Node.imported nm ins2
                      (.mk (insertA ii name v1) io inds)) q =
                      nodePS (Node.imported nm ins2 (.mk ii io inds)) q := by
                    intro q
                    cases q with
                    | nil => simp [nodePS]
                    | cons a as => simp [nodePS, Graph.nodes]
                  have hupd : RunOk g1 (g1.updateNode nid (.imported nm ins2
                      (.mk (insertA ii name v1) io inds))) [] := by
                    refine ⟨skel_updateNode hlk hsk2, List.nodup_nil,
                      by simp, by simp, ?_, by simp⟩
                    intro p hp
                    rw [nodes_updateNode,
                      pathSetN_setA_congr hlk hcong]
                    exact hp
                  have hs2 : SafeG (g1.updateNode nid (.imported nm ins2
                      (.mk (insertA ii name v1) io inds))).skel :=
                    hupd.skel_eq.symm ▸ hs1
                  obtain ⟨hok2, hrch2⟩ := ih _ _ _ _ hri hs2
                  refine ⟨RunOk.comp hok1 (RunOk.comp hupd hok2), ?_⟩
                  intro p hp
                  rcases List.mem_append.mp hp with hp1 | hp1
                  · obtain ⟨hd, t, m, sock, heq, hreq, hreach⟩ := hrch1 p hp1
                    subst hreq
                    exact ⟨hd, t, name, m, sock, ty, heq,
                      List.mem_cons_self _ _, hreach⟩
                  · obtain ⟨hd, t, name1, m, sock, ty1, heq, hmem, hreach⟩ :=
                      hrch2 p hp1
                    exact ⟨hd, t, name1, m, sock, ty1, heq,
                      List.mem_cons_of_mem _ hmem,
                      reach_of_skel hok1.skel_eq
                        (reach_of_skel hupd.skel_eq hreach)⟩
          | err e =>
            dsimp only at h
            cases h
          | panic =>
            dsimp only at h
            cases h
          | nofuel =>
            dsimp only at h
            cases h
      | none =>
        simp only [runInputsImpF] at h
        cases hlk : lookupA g.nodes nid with
        | none =>
          rw [hlk] at h
          dsimp only at h
          cases h
        | some nd =>
          rw [hlk] at h
          cases nd with
          | graph a b c =>
            dsimp only at h
            cases h
          | imported nm ins2 inner =>
            rcases inner with ⟨ii, io, inds⟩
            dsimp only [Graph.inputs, Graph.outputs, Graph.nodes] at h
            cases hli : lookupA ii name with
            | none =>
              rw [hli] at h
              dsimp only at h
              cases h
            | some v0 =>
              rw [hli] at h
              dsimp only at h
              have hsk2 : Node.skel (Node.imported nm ins2
                  (.mk (setA ii name v0.setDefault) io inds)) =
                  Node.skel (Node.imported nm ins2 (.mk ii io inds)) := by
                simp [Node.skel, Graph.skel]
              have hcong : ∀ q, nodePS (Node.imported nm ins2
                  (.mk (setA ii name v0.setDefault) io inds)) q =
                  nodePS (Node.imported nm ins2 (.mk ii io inds)) q := by
                intro q
                cases q with
                | nil => simp [nodePS]
                | cons a as => simp [nodePS, Graph.nodes]
              have hupd : RunOk g (g.updateNode nid (.imported nm ins2
                  (.mk (setA ii name v0.setDefault) io inds))) [] := by
                refine ⟨skel_updateNode hlk hsk2, List.nodup_nil,
                  by simp, by simp, ?_, by simp⟩
                intro p hp
                rw [nodes_updateNode, pathSetN_setA_congr hlk hcong]
                exact hp
              have hs2 : SafeG (g.updateNode nid (.imported nm ins2
                  (.mk (setA ii name v0.setDefault) io inds))).skel :=
                hupd.skel_eq.symm ▸ hs
              obtain ⟨hok2, hrch2⟩ := ih _ _ _ _ h hs2
              refine ⟨RunOk.comp hupd hok2, ?_⟩
              intro p hp
              obtain ⟨hd, t, name1, m, sock, ty1, heq, hmem, hreach⟩ :=
                hrch2 p hp
              exact ⟨hd, t, name1, m, sock, ty1, heq,
                List.mem_cons_of_mem _ hmem,
                reach_of_skel hupd.skel_eq hreach⟩
  intro g nid l g' tr h hs
  exact main l g nid g' tr h hs

/-- run_node step: the input loops and the nested run at one fuel
level give the bundle of run_node at the next.  The trace stays
duplicate-free because a re-entrant resolution of the same node would
close a link cycle, which safety excludes. -/
theorem PNode_step (f : Nat) (hI : PIng f) (hM : PImp f) (hRn : PRun f) :
    PNode (f + 1) := by
  intro g nid g' tr h hs
  rw [runNodeF.eq_def, dif_neg (Nat.succ_ne_zero f)] at h
  simp only [Nat.add_sub_cancel] at h
  cases hlk : lookupA g.nodes nid with
  | none =>
    rw [hlk] at h
    dsimp only at h
    cases h
  | some nd =>
    rw [hlk] at h
    dsimp only at h
    by_cases hmemo : (nd.outputsOf.all (fun x => !x.2.isNoneV)) = true
    · rw [if_pos hmemo] at h
      cases h
      exact ⟨RunOk.of_eq, by simp⟩
    · rw [if_neg hmemo] at h
      cases nd with
      | graph ins outs s =>
        simp only [Node.outputsOf] at hmemo
        dsimp only at h
        cases hig : runInputsGF f g ins [] with
        | mk rr1 tr1 =>
          rw [hig] at h
          cases rr1 with
          | ok p1 =>
            rcases p1 with ⟨snapshot, g1⟩
            dsimp only at h
            cases hl1 : lookupA g1.nodes nid with
            | none =>
              rw [hl1] at h
              dsimp only at h
              cases h
            | some nd1 =>
              rw [hl1] at h
              cases nd1 with
              | imported a b c =>
                dsimp only at h
                cases h
              | graph ins1 outs1 s1 =>
                dsimp only at h
                cases hcall : s1.call snapshot outs1 with
                | error msg =>
                  rw [hcall] at h
                  dsimp only at h
                  cases h
                | ok outs2 =>
                  rw [hcall] at h
                  dsimp only at h
                  cases h
                  obtain ⟨hok1, hrch1⟩ := hI _ _ _ _ _ _ hig hs
                  have hs1 : SafeG g1.skel := hok1.skel_eq.symm ▸ hs
                  have hcomp : s1.completing :=
                    completing_of_safeN (safeN_of_lookup hs1 hl1)
                  have houts2 : outs2.all (fun x => !x.2.isNoneV) = true :=
                    hcomp _ _ _ hcall
                  have hedge : ∀ name m sock ty,
                      (name, some (SocketRef.node m sock), ty) ∈ ins →
                      LinkStep g nid m := by
                    intro name m sock ty hmem
                    exact ⟨.graph ins outs s, hlk,
                      (name, some (.node m sock), ty), hmem, sock, rfl⟩
                  have hnotin : [nid] ∉ tr1 := by
                    intro hin
                    obtain ⟨hd, t, name, m, sock, ty, heq, hmem, hreach⟩ :=
                      hrch1 _ hin
                    cases heq
                    exact no_cycle_of_safe hs nid
                      (cycle_of_step_reach (hedge _ _ _ _ hmem) hreach)
                  have hof : outs.all (fun x => !x.2.isNoneV) = false := by
                    cases hb : outs.all (fun x => !x.2.isNoneV) with
                    | true => exact absurd hb hmemo
                    | false => rfl
                  have hmono2 : ∀ q,
                      nodePS (.graph ins1 outs1 s1) q = true →
                      nodePS (.graph ins1 outs2 s1) q = true := by
                    intro q
                    cases q with
                    | nil =>
                      intro _
                      simp only [nodePS]
                      exact houts2
                    | cons a as =>
                      intro hq
                      simp [nodePS] at hq
                  refine ⟨⟨?_, ?_, ?_, ?_, ?_, ?_⟩, ?_⟩
                  · rw [skel_updateNode hl1 (by simp [Node.skel])]
                    exact hok1.skel_eq
                  · refine (List.nodup_append).mpr
                      ⟨hok1.nodup, by simp, ?_⟩
                    intro p hp1 hp2
                    simp only [List.mem_singleton] at hp2
                    subst hp2
                    exact hnotin hp1
                  · intro p hp
                    rcases List.mem_append.mp hp with hp1 | hp1
                    · exact hok1.nonnil p hp1
                    · simp only [List.mem_singleton] at hp1
                      subst hp1
                      simp
                  · intro p hp
                    rcases List.mem_append.mp hp with hp1 | hp1
                    · exact hok1.unset p hp1
                    · simp only [List.mem_singleton] at hp1
                      subst hp1
                      rw [pathSetN, hlk]
                      simp only [nodePS]
                      exact hof
                  · intro p hp
                    rw [nodes_updateNode]
                    exact pathSetN_setA_mono hl1 hmono2 p (hok1.mono p hp)
                  · intro p hp
                    rcases List.mem_append.mp hp with hp1 | hp1
                    · rw [nodes_updateNode]
                      exact pathSetN_setA_mono hl1 hmono2 p
                        (hok1.setAfter p hp1)
                    · simp only [List.mem_singleton] at hp1
                      subst hp1
                      rw [nodes_updateNode, pathSetN,
                        lookupA_setA_self _ _ _ _ hl1]
                      simp only [nodePS]
                      exact houts2
                  · intro p hp
                    rcases List.mem_append.mp hp with hp1 | hp1
                    · obtain ⟨hd, t, name, m, sock, ty, heq, hmem, hreach⟩ :=
                        hrch1 p hp1
                      exact ⟨hd, t, heq,
                        Relation.ReflTransGen.head (hedge _ _ _ _ hmem) hreach⟩
                    · simp only [List.mem_singleton] at hp1
                      subst hp1
                      exact ⟨nid, [], rfl, Relation.ReflTransGen.refl⟩
          | err e =>
            dsimp only at h
            cases h
          | panic =>
            dsimp only at h
            cases h
          | nofuel =>
            dsimp only at h
            cases h
      | imported nm ins inner0 =>
        dsimp only at h
        cases himp : runInputsImpF f g nid ins with
        | mk rr1 tr1 =>
          rw [himp] at h
          cases rr1 with
          | ok g1 =>
            dsimp only at h
            cases hl1 : lookupA g1.nodes nid with
            | none =>
              rw [hl1] at h
              dsimp only at h
              cases h
            | some nd1 =>
              rw [hl1] at h
              cases nd1 with
              | graph a b c =>
                dsimp only at h
                cases h
              | imported nm1 ins1 inner1 =>
                dsimp only at h
                cases hrun : runF f inner1 with
                | mk rr2 tr2 =>
                  rw [hrun] at h
                  cases rr2 with
                  | ok innerR =>
                    dsimp only at h
                    cases h
                    obtain ⟨hok1, hrch1⟩ := hM _ _ _ _ _ himp hs
                    have hs1 : SafeG g1.skel := hok1.skel_eq.symm ▸ hs
                    have hsInner : SafeG inner1.skel :=
                      safeG_of_safeN (safeN_of_lookup hs1 hl1)
                    have hok2 := hRn _ _ _ hrun hsInner
                    have hedge : ∀ name m sock ty,
                        (name, some (SocketRef.node m sock), ty) ∈ ins →
                        LinkStep g nid m := by
                      intro name m sock ty hmem
                      exact ⟨.imported nm ins inner0, hlk,
                        (name, some (.node m sock), ty), hmem, sock, rfl⟩
                    have hmono2 : ∀ q,
                        nodePS (.imported nm1 ins1 inner1) q = true →
                        nodePS (.imported nm1 ins1 innerR) q = true := by
                      intro q
                      cases q with
                      | nil =>
                        intro hq
                        simp [nodePS] at hq
                      | cons a as =>
                        intro hq
                        simp only [nodePS] at hq ⊢
                        exact hok2.mono _ hq
                    refine ⟨⟨?_, ?_, ?_, ?_, ?_, ?_⟩, ?_⟩
                    · rw [skel_updateNode hl1
                        (by simp [Node.skel, hok2.skel_eq])]
                      exact hok1.skel_eq
                    · refine (List.nodup_append).mpr
                        ⟨hok1.nodup, ?_, ?_⟩
                      · exact hok2.nodup.map
                          (fun a b hab => by injection hab)
                      · intro p hp1 hp2
                        obtain ⟨p2, hp2m, hpe⟩ := List.mem_map.mp hp2
                        subst hpe
                        have ht := hok1.setAfter _ hp1
                        rw [pathSetN, hl1] at ht
                        cases hp2c : p2 with
                        | nil => exact hok2.nonnil p2 hp2m hp2c
                        | cons a as =>
                          subst hp2c
                          simp only [nodePS] at ht
                          rw [hok2.unset _ hp2m] at ht
                          cases ht
                    · intro p hp
                      rcases List.mem_append.mp hp with hp1 | hp1
                      · exact hok1.nonnil p hp1
                      · obtain ⟨p2, _, hpe⟩ := List.mem_map.mp hp1
                        subst hpe
                        simp
                    · intro p hp
                      rcases List.mem_append.mp hp with hp1 | hp1
                      · exact hok1.unset p hp1
                      · obtain ⟨p2, hp2m, hpe⟩ := List.mem_map.mp hp1
                        subst hpe
                        cases hps : pathSetN g.nodes (nid :: p2) with
                        | false => rfl
                        | true =>
                          have ht := hok1.mono _ hps
                          rw [pathSetN, hl1] at ht
                          cases hp2c : p2 with
                          | nil => exact absurd hp2c (hok2.nonnil p2 hp2m)
                          | cons a as =>
                            subst hp2c
                            simp only [nodePS] at ht
                            rw [hok2.unset _ hp2m] at ht
                            cases ht
                    · intro p hp
                      rw [nodes_updateNode]
                      exact pathSetN_setA_mono hl1 hmono2 p (hok1.mono p hp)
                    · intro p hp
                      rcases List.mem_append.mp hp with hp1 | hp1
                      · rw [nodes_updateNode]
                        exact pathSetN_setA_mono hl1 hmono2 p
                          (hok1.setAfter p hp1)
                      · obtain ⟨p2, hp2m, hpe⟩ := List.mem_map.mp hp1
                        subst hpe
                        rw [nodes_updateNode, pathSetN,
                          lookupA_setA_self _ _ _ _ hl1]
                        cases hp2c : p2 with
                        | nil => exact absurd hp2c (hok2.nonnil p2 hp2m)
                        | cons a as =>
                          subst hp2c
                          simp only [nodePS]
                          exact hok2.setAfter _ hp2m
                    · intro p hp
                      rcases List.mem_append.mp hp with hp1 | hp1
                      · obtain ⟨hd, t, name, m, sock, ty, heq, hmem, hreach⟩ :=
                          hrch1 p hp1
                        exact ⟨hd, t, heq,
                          Relation.ReflTransGen.head
                            (hedge _ _ _ _ hmem) hreach⟩
                      · obtain ⟨p2, _, hpe⟩ := List.mem_map.mp hp1
                        subst hpe
                        exact ⟨nid, p2, rfl, Relation.ReflTransGen.refl⟩
                  | err e =>
                    dsimp only at h
                    cases h
                  | panic =>
                    dsimp only at h
                    cases h
                  | nofuel =>
                    dsimp only at h
                    cases h
          | err e =>
            dsimp only at h
            cases h
          | panic =>
            dsimp only at h
            cases h
          | nofuel =>
            dsimp only at h
            cases h

/-- The run bundle holds for every fuel and all six run functions. -/
theorem runBundle :
    ∀ f, PRun f ∧ POuts f ∧ PRes f ∧ PNode f ∧ PIng f ∧ PImp f := by
  intro f
  induction f with
  | zero =>
    have hres : PRes 0 := by
      intro g r v g' tr h hs
      rw [resolveRefF.eq_def, dif_pos rfl] at h
      cases h
    have hnode : PNode 0 := by
      intro g nid g' tr h hs
      rw [runNodeF.eq_def, dif_pos rfl] at h
      cases h
    have hrun : PRun 0 := by
      intro g g' tr h hs
      rw [runF.eq_def, dif_pos rfl] at h
      cases h
    exact ⟨hrun, POuts_of_PRes 0 hres, hres, hnode, PIng_of_PRes 0 hres,
      PImp_of_PRes 0 hres⟩
  | succ f ih =>
    obtain ⟨hrun, houts, hres, hnode, hing, himp⟩ := ih
    have hres2 := PRes_step f hnode
    have hnode2 := PNode_step f hing himp hrun
    have hrun2 := PRun_step f houts
    exact ⟨hrun2, POuts_of_PRes _ hres2, hres2, hnode2,
      PIng_of_PRes _ hres2, PImp_of_PRes _ hres2⟩

/-- run_node short-circuits without any shader call when every output
of the node already carries a value. -/
theorem runNodeF_memo {fuel : Nat} {g : Graph} {nid : NodeId} {nd : Node}
    (hf : fuel ≠ 0) (hlk : lookupA g.nodes nid = some nd)
    (hset : nd.outputsOf.all (fun x => !x.2.isNoneV) = true) :
    runNodeF fuel g nid = (.ok g, []) := by
  rw [runNodeF.eq_def, dif_neg hf, hlk]
  dsimp only
  rw [if_pos hset]

/-- A shader that writes the constant 1 to its single output: it sets
every output it returns. -/
def constShader : Shader := ⟨fun _ _ => .ok [("value", .Value (some 1))]⟩

/-- Diamond graph for C7: two declared outputs both read the same
socket of the single node n. -/
def gC7 : Graph := .mk
  []
  [("o1", (some (.node "n" "value"), .Value none)),
    ("o2", (some (.node "n" "value"), .Value none))]
  [("n", .graph [] [("value", .Value none)] constShader)]

/-- The diamond graph after its run: both outputs carry 1 and the
node's output cache is filled. -/
def gC7after : Graph := .mk
  []
  [("o1", (some (.node "n" "value"), .Value (some 1))),
    ("o2", (some (.node "n" "value"), .Value (some 1)))]
  [("n", .graph [] [("value", .Value (some 1))] constShader)]

/-- The diamond graph's node map with the node already computed. -/
def gC7set : Graph := .mk
  []
  []
  [("n", .graph [] [("value", .Value (some 1))] constShader)]

/-- C7: on a safe graph (no link cycles anywhere in the node map and
every shading function sets all of the outputs it returns), a
successful run produces a duplicate-free trace of shader-call paths:
each node's shading function is invoked at most once, even when two
different graph outputs both transitively depend on that node.  And
run_node returns immediately, invoking nothing and leaving the graph
unchanged, when every output of the node already has a value. -/
theorem C7_shader_at_most_once :
    (∀ fuel g g' tr, runF fuel g = (.ok g', tr) → SafeG g.skel →
      tr.Nodup) ∧
    (∀ fuel g nid nd, fuel ≠ 0 → lookupA g.nodes nid = some nd →
      nd.outputsOf.all (fun x => !x.2.isNoneV) = true →
      runNodeF fuel g nid = (.ok g, [])) := by
  constructor
  · intro fuel g g' tr h hs
    exact ((runBundle fuel).1 g g' tr h hs).nodup
  · intro fuel g nid nd hf hlk hset
    exact runNodeF_memo hf hlk hset

/-- C7 witness: running the diamond graph invokes the shader of its
shared node exactly once (the trace is the single path n and is
duplicate-free), and run_node on the already-computed node map returns
at once. -/
theorem C7_shader_at_most_once_witness :
    ([["n"]] : Trace).Nodup ∧
    runNodeF 3 gC7set "n" = (.ok gC7set, []) := by
  have hnl : ∀ a b,
      ¬ LinkStep (Graph.mk [] [] [("n", Node.graph [] [] constShader)]) a b := by
    intro a b hlink
    obtain ⟨nd, hl, x, hx, sock, hs⟩ := hlink
    simp only [Graph.nodes, lookupA] at hl
    by_cases hc : ("n" : String) = a
    · rw [if_pos hc] at hl
      cases hl
      simp [Node.inputsOf] at hx
    · rw [if_neg hc] at hl
      cases hl
  have hsafe : SafeG gC7.skel := by
    have hskel : gC7.skel =
        Graph.mk [] [] [("n", Node.graph [] [] constShader)] := by
      simp [gC7, Graph.skel, skelPairs, Node.skel]
    rw [hskel]
    refine SafeG.mk _ _ _ ?_ ?_
    · intro c hcyc
      obtain ⟨l, hne, hch, _⟩ := hcyc
      cases l with
      | nil => exact hne rfl
      | cons b l2 => exact hnl c b (List.chain_cons.mp hch).1
    · intro k nd hmem
      simp only [List.mem_singleton, Prod.mk.injEq] at hmem
      rw [hmem.2]
      refine SafeN.graph _ _ _ ?_
      intro i o o' hcall
      cases hcall
      rfl
  constructor
  · refine C7_shader_at_most_once.1 10 gC7 gC7after [["n"]] ?_ hsafe
    simp [runF, runOutsF, resolveRefF, runNodeF, runInputsGF, runInputsImpF,
      lookupA, setA, insertA, containsA, Graph.inputs, Graph.outputs,
      Graph.nodes, Graph.withOutputs, Graph.updateNode, Node.inputsOf,
      Node.outputsOf, SocketValue.isNoneV, constShader, gC7, gC7after]
  · refine C7_shader_at_most_once.2 3 gC7set "n"
      (.graph [] [("value", .Value (some 1))] constShader)
      (by decide) ?_ ?_
    · simp [gC7set, lookupA, Graph.nodes]
    · simp [Node.outputsOf, SocketValue.isNoneV]

end Eray
